import Mathlib

/-!
Verification of the `dirhash` package (`src/dirhash/__init__.py`) against its
natural-language specification.

Shallow embedding conventions:

* A `hashlib` `HASH` object is modelled by the sequence of bytes fed to it via
  `update`; `digest()` applies the (opaque) hash algorithm to that sequence.
  The algorithm itself (`hashlib.new(algo)`) is an arbitrary function
  `List Nat → List Nat`, a parameter of every definition.
* `hexdigest()` is the canonical lowercase hexadecimal string of the digest
  bytes; we model that string by its list of Unicode code points (`hexKey`),
  and string comparison (Python compares strings pointwise by code point,
  shortest-prefix first) by the lexicographic order on `List Nat`.
* A filesystem subtree is the inductive `Entry`; a directory is traversed via
  its list of children.  `scandir` enumeration order is the list order.
  Symbolic links carry their resolved shape directly, matching the
  `DirEntry.is_file / is_dir / is_symlink` behaviour described in the source
  comments (a symlink to a file answers true to both `is_symlink` and
  `is_file`, a broken symlink to neither `is_file` nor `is_dir`).
* The Python dict `cache` is an association list in insertion order:
  `alistGet` is `in` / `[]`, `alistSet` is `cache[k] = v` (replace in place or
  append).
* `hash_dir`'s recursion is expressed with an explicit fuel parameter
  (`hash_dirF`); the public wrapper supplies fuel `entriesSize children + 1`,
  which is always sufficient, so the wrapper computes exactly the source's
  recursion on every input.
* The result of `hash_dir` additionally carries two counters: the number of
  `checksum` invocations (file content reads) and the number of recursive
  `hash_dir` invocations, used only to state the "no additional reads /
  no re-recursion" properties.
-/

/-- State of a `hashlib` HASH object: the bytes fed to it so far. -/
abbrev HashState := List Nat

/-- A hash algorithm: total function from the fed bytes to the digest bytes. -/
abbrev Algo := List Nat → List Nat

/-- `h.digest()`: finalize the hash state with the given algorithm. -/
def digest (algo : Algo) (h : HashState) : List Nat := algo h

/-- An algorithm whose digests consist of bytes (true of every real hash
algorithm); under this condition the hexadecimal representation is injective. -/
def BytesOnly (algo : Algo) : Prop := ∀ l, ∀ b ∈ algo l, b < 256

/-- Unicode code point of the lowercase hexadecimal digit for `n < 16`
(48 = code of the zero digit, 87 + 10 = 97 = code of the letter a). -/
def hexDigitCode (n : Nat) : Nat := if n < 10 then 48 + n else 87 + n

/-- Code points of the canonical lowercase hexadecimal string of a byte
sequence, two hex digits per byte (`%02x`), in order.  `hexKey d` ordered
lexicographically is exactly Python's ascending order on `hexdigest()`
strings. -/
def hexKey : List Nat → List Nat
  | [] => []
  | b :: rest => hexDigitCode (b / 16) :: hexDigitCode (b % 16) :: hexKey rest

/-- Order on digests used by `sorted(..., key=lambda x: x.hexdigest())`:
ascending canonical hexadecimal representation. -/
def digestLe (a b : List Nat) : Prop := hexKey a ≤ hexKey b

instance : DecidableRel digestLe := fun a b =>
  inferInstanceAs (Decidable (hexKey a ≤ hexKey b))

instance : IsTotal (List Nat) digestLe := ⟨fun a b => le_total (hexKey a) (hexKey b)⟩

instance : IsTrans (List Nat) digestLe := ⟨fun _ _ _ h₁ h₂ => le_trans h₁ h₂⟩

/-- Order on HASH objects by the hexadecimal representation of their digest. -/
def stateLe (algo : Algo) (a b : HashState) : Prop :=
  hexKey (digest algo a) ≤ hexKey (digest algo b)

instance (algo : Algo) : DecidableRel (stateLe algo) := fun a b =>
  inferInstanceAs (Decidable (hexKey (digest algo a) ≤ hexKey (digest algo b)))

instance (algo : Algo) : IsTotal HashState (stateLe algo) :=
  ⟨fun a b => le_total (hexKey (digest algo a)) (hexKey (digest algo b))⟩

instance (algo : Algo) : IsTrans HashState (stateLe algo) :=
  ⟨fun _ _ _ h₁ h₂ => le_trans h₁ h₂⟩

/-- `sorted(digests, key=hexdigest)` on raw digest values.  `sorted` in Python
is a stable sort; insertion sort is stable, so the two agree elementwise. -/
def sortDigests (l : List (List Nat)) : List (List Nat) := l.insertionSort digestLe

/-- `sorted(hash_objects, key=lambda x: x.hexdigest())`. -/
def sortStates (algo : Algo) (l : List HashState) : List HashState :=
  l.insertionSort (stateLe algo)

/-- The read/update loop of `checksum`, with the remaining file content made
explicit: `chunk = f.read(chunksize); while chunk: h.update(chunk); ...`.
`f.read(n)` returns the next `min n remaining` bytes, so the loop body runs
while `chunksize ≠ 0` and content remains.  The fuel (first argument) bounds
the number of iterations; `content.length` is always enough. -/
def checksumF : Nat → Nat → List Nat → HashState
  | 0, _, _ => []
  | fuel + 1, chunksize, content =>
    if chunksize = 0 ∨ content = [] then []
    else content.take chunksize ++ checksumF fuel chunksize (content.drop chunksize)

/-- `checksum(fp, chunksize, algo)` from the source, as the state of the
returned HASH object (the bytes fed to it); its digest is `digest algo ·`.
The file at `fp` is represented by its byte content. -/
def checksum (content : List Nat) (chunksize : Nat) : HashState :=
  checksumF content.length chunksize content

/-- A directory entry as classified by `scandir` + `DirEntry` predicates.
Symlinks carry their resolved target's shape; `other` covers device files,
sockets, FIFOs (neither `is_file` nor `is_dir`). -/
inductive Entry where
  | file (name : String) (content : List Nat)
  | dir (name : String) (children : List Entry)
  | symlinkFile (name : String) (content : List Nat)
  | symlinkDir (name : String) (children : List Entry)
  | symlinkBroken (name : String)
  | other (name : String)

/-- `DirEntry.is_symlink()`. -/
def isSymlinkEntry : Entry → Bool
  | .symlinkFile _ _ => true
  | .symlinkDir _ _ => true
  | .symlinkBroken _ => true
  | _ => false

mutual
/-- Size of one entry (for fuel computations). -/
def entrySize : Entry → Nat
  | .dir _ cs => 1 + entriesSize cs
  | .symlinkDir _ cs => 1 + entriesSize cs
  | _ => 1
/-- Size of a child list (for fuel computations). -/
def entriesSize : List Entry → Nat
  | [] => 0
  | x :: rest => entrySize x + entriesSize rest
end

/-- `DirEntry.path`: the scandir argument joined with the entry name. -/
def entryPath (d name : String) : String := d ++ "/" ++ name

/-- Outcome of the classification loop of `hash_dir` for one entry. -/
inductive EntryClass where
  | skipped
  | asFile (path : String) (content : List Nat)
  | asDir (path : String) (children : List Entry)
  | asOther (path : String)

/-- One iteration of the `for x in scandir(d)` loop of `hash_dir`:
the `continue` fires only when `is_symlink()` is true and `resolve_symlinks`
is false, so only symlinks can be skipped; every other entry (and every
symlink when `resolve_symlinks` is true) goes to `files`, `subdirs` or
`others` according to `is_file` / `is_dir`.  In particular a non-symlink
exotic entry (device file, socket, FIFO) lands in `others` regardless of
`resolve_symlinks`. -/
def classifyEntry (resolve : Bool) (d : String) : Entry → EntryClass
  | .file n c => .asFile (entryPath d n) c
  | .dir n cs => .asDir (entryPath d n) cs
  | .symlinkFile n c => if resolve then .asFile (entryPath d n) c else .skipped
  | .symlinkDir n cs => if resolve then .asDir (entryPath d n) cs else .skipped
  | .symlinkBroken n => if resolve then .asOther (entryPath d n) else .skipped
  | .other n => .asOther (entryPath d n)

/-- The `files` list built by the classification loop (paths with the
file content behind each path). -/
def filesOf (resolve : Bool) (d : String) (children : List Entry) :
    List (String × List Nat) :=
  children.filterMap fun x =>
    match classifyEntry resolve d x with
    | .asFile p c => some (p, c)
    | _ => none

/-- The `subdirs` list built by the classification loop (paths with the
directory content behind each path). -/
def subdirsOf (resolve : Bool) (d : String) (children : List Entry) :
    List (String × List Entry) :=
  children.filterMap fun x =>
    match classifyEntry resolve d x with
    | .asDir p cs => some (p, cs)
    | _ => none

/-- The `others` list built by the classification loop. -/
def othersOf (resolve : Bool) (d : String) (children : List Entry) : List String :=
  children.filterMap fun x =>
    match classifyEntry resolve d x with
    | .asOther p => some p
    | _ => none

/-- Contents of the (non-skipped) regular-file children, in scandir order;
path-free companion of `filesOf`. -/
def fileContents (resolve : Bool) (children : List Entry) : List (List Nat) :=
  children.filterMap fun x =>
    match x with
    | .file _ c => some c
    | .symlinkFile _ c => if resolve then some c else none
    | _ => none

/-- Child lists of the (non-skipped) directory children, in scandir order;
path-free companion of `subdirsOf`. -/
def dirChildrenLists (resolve : Bool) (children : List Entry) : List (List Entry) :=
  children.filterMap fun x =>
    match x with
    | .dir _ cs => some cs
    | .symlinkDir _ cs => if resolve then some cs else none
    | _ => none

/-- Whether the classification loop puts at least one entry into `others`. -/
def hasOther (resolve : Bool) (children : List Entry) : Bool :=
  children.any fun x =>
    match x with
    | .symlinkBroken _ => resolve
    | .other _ => true
    | _ => false

/-- The fingerprint cache: a Python dict from path to HASH object, in
insertion order. -/
abbrev Cache := List (String × HashState)

/-- Python dict lookup (`k in cache`, `cache[k]`). -/
def alistGet {β : Type} : List (String × β) → String → Option β
  | [], _ => none
  | (k, v) :: rest, p => if k = p then some v else alistGet rest p

/-- Python dict assignment `cache[k] = v`: replace in place if the key is
present, else append (insertion order semantics). -/
def alistSet {β : Type} : List (String × β) → String → β → List (String × β)
  | [], k, v => [(k, v)]
  | (k', v') :: rest, k, v =>
    if k' = k then (k, v) :: rest else (k', v') :: alistSet rest k v

/-- The error raised by `hash_dir` for entries that are neither files nor
directories (the source raises `NotImplementedError`; the specification names
it `UnsupportedEntryKind`). -/
inductive DirhashError where
  | unsupportedEntryKind
  deriving DecidableEq

/-- Result of a `hash_dir` call: the returned `(h, cache)` pair or the raised
error, plus two observation counters: number of `checksum` calls (file
content reads) and number of recursive `hash_dir` invocations. -/
abbrev HashResult := Except DirhashError (HashState × Cache) × Nat × Nat

/-- The `for x in files` loop of `hash_dir`: reuse the cached HASH object if
the path is a cache key, else run `checksum` and store the result.  Returns
`file_hashes`, the updated cache, and the number of `checksum` calls. -/
def fileLoop (chunksize : Nat) : List (String × List Nat) → Cache →
    List HashState × Cache × Nat
  | [], cache => ([], cache, 0)
  | (p, content) :: rest, cache =>
    match alistGet cache p with
    | some hh =>
      let r := fileLoop chunksize rest cache
      (hh :: r.1, r.2)
    | none =>
      let fh := checksum content chunksize
      let r := fileLoop chunksize rest (alistSet cache p fh)
      (fh :: r.1, r.2.1, r.2.2 + 1)

/-- The `for x in subdirs` loop of `hash_dir`: reuse the cached HASH object if
the subdirectory path is a cache key, else recurse (through `recur`) and store
the result.  Iterating over all children and acting only on the
directory-classified ones is the same loop as iterating over the precomputed
`subdirs` list, since classification is pure and order-preserving.  Returns
`subdir_hashes` (or the propagated error), the threaded cache, the number of
file reads performed inside recursive calls, and the number of recursive
`hash_dir` invocations. -/
def subdirLoop (resolve : Bool) (recur : String → List Entry → Cache → HashResult)
    (d : String) : List Entry → Cache →
    Except DirhashError (List HashState × Cache) × Nat × Nat
  | [], cache => (.ok ([], cache), 0, 0)
  | x :: rest, cache =>
    match classifyEntry resolve d x with
    | .asDir p cs =>
      (match alistGet cache p with
       | some hh =>
         match subdirLoop resolve recur d rest cache with
         | (.ok (hs, c), r, k) => (.ok (hh :: hs, c), r, k)
         | (.error e, r, k) => (.error e, r, k)
       | none =>
         match recur p cs cache with
         | (.ok (dh, cache'), r₁, k₁) =>
           (match subdirLoop resolve recur d rest (alistSet cache' p dh) with
            | (.ok (hs, c), r, k) => (.ok (dh :: hs, c), r₁ + r, 1 + k₁ + k)
            | (.error e, r, k) => (.error e, r₁ + r, 1 + k₁ + k))
         | (.error e, r₁, k₁) => (.error e, r₁, 1 + k₁))
    | _ => subdirLoop resolve recur d rest cache

/-- `hash_dir(d, chunksize, algo, resolve_symlinks, cache)` with explicit
fuel bounding the recursion depth (the source recursion always terminates on
finite trees; any fuel above the tree depth computes it exactly).
Mirrors the source: classify children; raise if `others` is non-empty;
hash the files (via cache); recurse into the subdirs (via cache); sort each
group of HASH objects by hexdigest; feed the digests — sorted file hashes
first, then sorted subdir hashes — into a fresh HASH state; finally store the
directory's own path in the cache and return. -/
def hash_dirF (algo : Algo) (chunksize : Nat) (resolve : Bool) :
    Nat → String → List Entry → Cache → HashResult
  | 0, _, _, _ => (.error .unsupportedEntryKind, 0, 0)
  | fuel + 1, d, children, cache =>
    let files := filesOf resolve d children
    let others := othersOf resolve d children
    if others.length > 0 then (.error .unsupportedEntryKind, 0, 0)
    else
      match fileLoop chunksize files cache with
      | (file_hashes, cache1, reads) =>
        match subdirLoop resolve (hash_dirF algo chunksize resolve fuel) d children cache1 with
        | (.ok (subdir_hashes, cache2), r₂, k₂) =>
          let sorted_file_hashes := sortStates algo file_hashes
          let sorted_subdir_hashes := sortStates algo subdir_hashes
          let h : HashState :=
            ((sorted_file_hashes ++ sorted_subdir_hashes).map (digest algo)).flatten
          (.ok (h, alistSet cache2 d h), reads + r₂, k₂)
        | (.error e, r₂, k₂) => (.error e, reads + r₂, k₂)

/-- `hash_dir` from the source: the fuel wrapper with always-sufficient fuel. -/
def hash_dir (algo : Algo) (chunksize : Nat) (resolve : Bool)
    (d : String) (children : List Entry) (cache : Cache) : HashResult :=
  hash_dirF algo chunksize resolve (entriesSize children + 1) d children cache

/-- The HASH state returned by a `hash_dir` call, if it did not raise. -/
def resState (r : HashResult) : Option HashState :=
  match r.1 with
  | .ok (h, _) => some h
  | .error _ => none

/-- The cache returned by a `hash_dir` call, if it did not raise. -/
def resCache (r : HashResult) : Option Cache :=
  match r.1 with
  | .ok (_, c) => some c
  | .error _ => none

/-- Number of `checksum` calls (file content reads) a call performed. -/
def resReads (r : HashResult) : Nat := r.2.1

/-- Number of recursive `hash_dir` invocations a call performed. -/
def resRecs (r : HashResult) : Nat := r.2.2

/-- Digests of the regular-file children of a directory, in scandir order
(the digest `checksum` would produce for each). -/
def fileDigestsAt (algo : Algo) (chunksize : Nat) (resolve : Bool)
    (children : List Entry) : List (List Nat) :=
  (fileContents resolve children).map fun c => algo (checksum c chunksize)

/-- Cache-free characterization of the HASH state `hash_dir` builds for a
directory with the given children (fuelled): the file digests sorted by hex
among themselves, followed by the subdirectory digests sorted by hex among
themselves, concatenated. -/
def specStateF (algo : Algo) (chunksize : Nat) (resolve : Bool) :
    Nat → List Entry → HashState
  | 0, _ => []
  | fuel + 1, children =>
    (sortDigests (fileDigestsAt algo chunksize resolve children) ++
      sortDigests ((dirChildrenLists resolve children).map fun l =>
        algo (specStateF algo chunksize resolve fuel l))).flatten

/-- Cache-free characterization of the `hash_dir` state (wrapper). -/
def specState (algo : Algo) (chunksize : Nat) (resolve : Bool)
    (children : List Entry) : HashState :=
  specStateF algo chunksize resolve (entriesSize children + 1) children

/-- Digests of the (non-skipped) directory children, in scandir order. -/
def subdirDigestsAt (algo : Algo) (chunksize : Nat) (resolve : Bool)
    (children : List Entry) : List (List Nat) :=
  (dirChildrenLists resolve children).map fun l =>
    algo (specState algo chunksize resolve l)

/-- All child digests (files and subdirectories) of a directory. -/
def childDigestsAt (algo : Algo) (chunksize : Nat) (resolve : Bool)
    (children : List Entry) : List (List Nat) :=
  fileDigestsAt algo chunksize resolve children ++
    subdirDigestsAt algo chunksize resolve children

/-- The cache entries a traversal of `d` appends to a cache containing none of
the subtree's paths (fuelled): one entry per file in `files` order, then the
entries of each subdirectory's own traversal in order, then the directory's
own entry, matching the write order of the source. -/
def specEntriesF (algo : Algo) (chunksize : Nat) (resolve : Bool) :
    Nat → String → List Entry → Cache
  | 0, _, _ => []
  | fuel + 1, d, children =>
    ((filesOf resolve d children).map fun pc => (pc.1, checksum pc.2 chunksize)) ++
      ((subdirsOf resolve d children).flatMap fun pcs =>
        specEntriesF algo chunksize resolve fuel pcs.1 pcs.2) ++
      [(d, specStateF algo chunksize resolve (fuel + 1) children)]

/-- The cache entries a fresh traversal of `d` appends (wrapper). -/
def specEntries (algo : Algo) (chunksize : Nat) (resolve : Bool)
    (d : String) (children : List Entry) : Cache :=
  specEntriesF algo chunksize resolve (entriesSize children + 1) d children

/-- Every path a traversal of `d` touches (cache keys it writes):
all file and subdirectory paths of the subtree plus `d` itself. -/
def allPaths (algo : Algo) (chunksize : Nat) (resolve : Bool)
    (d : String) (children : List Entry) : List String :=
  (specEntries algo chunksize resolve d children).map (·.1)

/-- No entry of the subtree (restricted to non-skipped children) is of an
unsupported kind (fuelled). -/
def noOthersF (resolve : Bool) : Nat → List Entry → Bool
  | 0, _ => true
  | fuel + 1, children =>
    !hasOther resolve children &&
      (dirChildrenLists resolve children).all (noOthersF resolve fuel)

/-- No entry of the subtree is of an unsupported kind (wrapper). -/
def noOthers (resolve : Bool) (children : List Entry) : Bool :=
  noOthersF resolve (entriesSize children + 1) children

/-- The directory state as claim C1 words it: all child digests collected into
one list and sorted together by hexadecimal representation, then concatenated
(fuelled).  This follows the claim's words, for comparison with the source's
`hash_dirF`; it is not the source algorithm. -/
def combinedStateF (algo : Algo) (chunksize : Nat) (resolve : Bool) :
    Nat → List Entry → HashState
  | 0, _ => []
  | fuel + 1, children =>
    (sortDigests (fileDigestsAt algo chunksize resolve children ++
      ((dirChildrenLists resolve children).map fun l =>
        algo (combinedStateF algo chunksize resolve fuel l)))).flatten

/-- The directory state as claim C1 words it (wrapper). -/
def combinedState (algo : Algo) (chunksize : Nat) (resolve : Bool)
    (children : List Entry) : HashState :=
  combinedStateF algo chunksize resolve (entriesSize children + 1) children

/-- An injective stand-in for a hash algorithm (the digest is the fed byte
sequence itself), used to instantiate counterexamples: any collision-free
algorithm behaves this way on the inputs involved. -/
def algoId : Algo := fun bs => bs

/-- A byte-valued stand-in algorithm (every digest byte is reduced mod 256, so
`BytesOnly` holds), used to instantiate witnesses. -/
def algoMod : Algo := fun bs => bs.map (· % 256)

/-- The grouping loop of `getdupes`: append path `p` to the bucket of hex
digest `hx`, creating the bucket at the end if absent (Python dict insertion
order). -/
def byHashAdd (m : List (String × List String)) (hx p : String) :
    List (String × List String) :=
  match m with
  | [] => [(hx, [p])]
  | (k, ps) :: rest =>
    if k = hx then (k, ps ++ [p]) :: rest else (k, ps) :: byHashAdd rest hx p

/-- `by_hash` of `getdupes`: invert a loaded path→hexdigest table into
hexdigest→paths, iterating the table in insertion order. -/
def byHash (cache : List (String × String)) : List (String × List String) :=
  cache.foldl (fun m e => byHashAdd m e.2 e.1) []

/-- The core of `getdupes` (after arg parsing and file I/O): keep only the
buckets with two or more paths. -/
def getdupes (cache : List (String × String)) : List (String × List String) :=
  (byHash cache).filter fun e => e.2.length > 1

/-- Models two successive calls `hash_dir(d1)` then `hash_dir(d2)` in one
Python process where the caller omits the `cache` argument: CPython evaluates
the default `cache={}` once, at function definition time, and `hash_dir`
mutates that dict in place, so the second call receives the cache object left
behind by the first call (shown here for a successful first call). -/
def hash_dir_noCacheTwice (algo : Algo) (chunksize : Nat) (resolve : Bool)
    (d₁ : String) (ch₁ : List Entry) (d₂ : String) (ch₂ : List Entry) :
    HashResult × HashResult :=
  let r₁ := hash_dir algo chunksize resolve d₁ ch₁ []
  let c₁ := match r₁.1 with
    | .ok (_, c) => c
    | .error _ => []
  (r₁, hash_dir algo chunksize resolve d₂ ch₂ c₁)

/-! ### Association-list (Python dict) lemmas -/

theorem alistGet_set_self {β : Type} (c : List (String × β)) (k : String) (v : β) :
    alistGet (alistSet c k v) k = some v := by
  induction c with
  | nil => simp [alistGet, alistSet]
  | cons e rest ih =>
    obtain ⟨k', v'⟩ := e
    by_cases h : k' = k
    · simp [alistSet, alistGet, h]
    · simp [alistSet, alistGet, h, ih]

theorem alistGet_set_ne {β : Type} (c : List (String × β)) {k q : String} (v : β)
    (h : q ≠ k) : alistGet (alistSet c k v) q = alistGet c q := by
  induction c with
  | nil => simp [alistGet, alistSet, Ne.symm h]
  | cons e rest ih =>
    obtain ⟨k', v'⟩ := e
    by_cases hk : k' = k
    · subst hk
      simp [alistSet, alistGet, Ne.symm h]
    · simp [alistSet, alistGet, hk, ih]

theorem alistSet_eq_of_get {β : Type} {c : List (String × β)} {k : String} {v : β}
    (h : alistGet c k = some v) : alistSet c k v = c := by
  induction c with
  | nil => simp [alistGet] at h
  | cons e rest ih =>
    obtain ⟨k', v'⟩ := e
    by_cases hk : k' = k
    · subst hk
      simp [alistGet] at h
      simp [alistSet, h]
    · simp [alistGet, hk] at h
      simp [alistSet, hk, ih h]

theorem alistSet_eq_append {β : Type} {c : List (String × β)} {k : String} (v : β)
    (h : alistGet c k = none) : alistSet c k v = c ++ [(k, v)] := by
  induction c with
  | nil => simp [alistSet]
  | cons e rest ih =>
    obtain ⟨k', v'⟩ := e
    by_cases hk : k' = k
    · simp [alistGet, hk] at h
    · simp [alistGet, hk] at h
      simp [alistSet, hk, ih h]

theorem alistGet_append {β : Type} (c₁ c₂ : List (String × β)) (k : String) :
    alistGet (c₁ ++ c₂) k = ((alistGet c₁ k).or (alistGet c₂ k)) := by
  induction c₁ with
  | nil => simp [alistGet]
  | cons e rest ih =>
    obtain ⟨k', v'⟩ := e
    by_cases hk : k' = k
    · simp [alistGet, hk]
    · simp [alistGet, hk, ih]

theorem alistGet_eq_none {β : Type} {c : List (String × β)} {k : String}
    (h : k ∉ c.map (·.1)) : alistGet c k = none := by
  induction c with
  | nil => simp [alistGet]
  | cons e rest ih =>
    obtain ⟨k', v'⟩ := e
    simp only [List.map_cons, List.mem_cons] at h
    push_neg at h
    simp [alistGet, Ne.symm h.1, ih h.2]

theorem alistGet_of_nodup_mem {β : Type} {c : List (String × β)} {k : String} {v : β}
    (hnd : (c.map (·.1)).Nodup) (hm : (k, v) ∈ c) : alistGet c k = some v := by
  induction c with
  | nil => simp at hm
  | cons e rest ih =>
    obtain ⟨k', v'⟩ := e
    simp only [List.map_cons, List.nodup_cons] at hnd
    rcases List.mem_cons.1 hm with h | h
    · injection h with h1 h2
      subst h1
      subst h2
      simp [alistGet]
    · have hk : k' ≠ k := by
        intro hh
        subst hh
        exact hnd.1 (List.mem_map.2 ⟨(k', v), h, rfl⟩)
      simp [alistGet, hk, ih hnd.2 h]

/-! ### checksum lemmas -/

theorem checksumF_zero_chunk (fuel : Nat) (content : List Nat) :
    checksumF fuel 0 content = [] := by
  cases fuel <;> simp [checksumF]

theorem checksum_zero_chunk (content : List Nat) : checksum content 0 = [] :=
  checksumF_zero_chunk _ _

theorem checksumF_adequate : ∀ (fuel chunksize : Nat) (content : List Nat),
    content.length ≤ fuel → 0 < chunksize → checksumF fuel chunksize content = content := by
  intro fuel
  induction fuel with
  | zero =>
    intro cs content hlen _
    have h : content = [] := List.length_eq_zero.mp (Nat.le_zero.mp hlen)
    simp [h, checksumF]
  | succ n ih =>
    intro cs content hlen hcs
    match content with
    | [] => simp [checksumF]
    | b :: rest =>
      have hne : (b :: rest : List Nat) ≠ [] := by simp
      have hcs0 : cs ≠ 0 := Nat.pos_iff_ne_zero.mp hcs
      have hlen' : rest.length + 1 ≤ n + 1 := by simpa using hlen
      have hdrop : ((b :: rest).drop cs).length ≤ n := by
        simp only [List.length_drop, List.length_cons]
        omega
      rw [checksumF]
      simp only [hcs0, hne, or_self, if_false]
      rw [ih cs ((b :: rest).drop cs) hdrop hcs]
      exact List.take_append_drop ..

theorem checksum_pos_chunk (content : List Nat) {chunksize : Nat} (h : 0 < chunksize) :
    checksum content chunksize = content :=
  checksumF_adequate _ _ _ le_rfl h

/-! ### Hexadecimal key lemmas -/

theorem hexDigitCode_inj {m n : Nat} (hm : m < 16) (hn : n < 16)
    (h : hexDigitCode m = hexDigitCode n) : m = n := by
  unfold hexDigitCode at h
  split_ifs at h <;> omega

theorem hexKey_inj : ∀ {l₁ l₂ : List Nat}, (∀ b ∈ l₁, b < 256) → (∀ b ∈ l₂, b < 256) →
    hexKey l₁ = hexKey l₂ → l₁ = l₂ := by
  intro l₁
  induction l₁ with
  | nil =>
    intro l₂ _ _ h
    cases l₂ with
    | nil => rfl
    | cons b rest => simp [hexKey] at h
  | cons a r₁ ih =>
    intro l₂ h₁ h₂ h
    cases l₂ with
    | nil => simp [hexKey] at h
    | cons b r₂ =>
      simp only [hexKey, List.cons.injEq] at h
      have ha : a < 256 := h₁ a (by simp)
      have hb : b < 256 := h₂ b (by simp)
      have d₁ : a / 16 < 16 := by omega
      have d₂ : b / 16 < 16 := by omega
      have m₁ : a % 16 < 16 := by omega
      have m₂ : b % 16 < 16 := by omega
      have e₁ := hexDigitCode_inj d₁ d₂ h.1
      have e₂ := hexDigitCode_inj m₁ m₂ h.2.1
      have hab : a = b := by omega
      subst hab
      rw [ih (fun x hx => h₁ x (by simp [hx])) (fun x hx => h₂ x (by simp [hx])) h.2.2]

/-! ### Sorting lemmas -/

theorem sortStates_map_digest (algo : Algo) (l : List HashState) :
    (sortStates algo l).map (digest algo) = sortDigests (l.map (digest algo)) :=
  List.map_insertionSort (stateLe algo) digestLe (digest algo) l
    (fun _ _ _ _ => Iff.rfl)

theorem sortDigests_perm (l : List (List Nat)) : List.Perm (sortDigests l) l :=
  List.perm_insertionSort digestLe l

theorem sortDigests_sorted (l : List (List Nat)) : List.Sorted digestLe (sortDigests l) :=
  List.sorted_insertionSort digestLe l

theorem eq_of_perm_of_sorted_digests : ∀ {l₁ l₂ : List (List Nat)},
    (∀ a ∈ l₁, ∀ b ∈ l₂, hexKey a = hexKey b → a = b) →
    List.Perm l₁ l₂ → List.Sorted digestLe l₁ → List.Sorted digestLe l₂ → l₁ = l₂ := by
  intro l₁
  induction l₁ with
  | nil =>
    intro l₂ _ hp _ _
    exact (hp.nil_eq).symm ▸ rfl
  | cons a t₁ ih =>
    intro l₂ hanti hp hs₁ hs₂
    cases l₂ with
    | nil => exact absurd hp.eq_nil (by simp)
    | cons b t₂ =>
      have hab : a = b := by
        have ha2 : a ∈ b :: t₂ := hp.subset (List.mem_cons_self a t₁)
        have hb1 : b ∈ a :: t₁ := hp.symm.subset (List.mem_cons_self b t₂)
        rcases List.mem_cons.1 ha2 with h | h
        · exact h
        rcases List.mem_cons.1 hb1 with h' | h'
        · exact h'.symm
        have hba : digestLe b a := List.rel_of_sorted_cons hs₂ a h
        have hab : digestLe a b := List.rel_of_sorted_cons hs₁ b h'
        exact hanti a (List.mem_cons_self a t₁) b (List.mem_cons_self b t₂)
          (le_antisymm hab hba)
      subst hab
      have ht : List.Perm t₁ t₂ := hp.cons_inv
      have : t₁ = t₂ :=
        ih (fun x hx y hy => hanti x (List.mem_cons_of_mem _ hx) y (List.mem_cons_of_mem _ hy))
          ht hs₁.of_cons hs₂.of_cons
      rw [this]

theorem sortDigests_eq_of_perm {l₁ l₂ : List (List Nat)}
    (hanti : ∀ a ∈ l₁, ∀ b ∈ l₂, hexKey a = hexKey b → a = b)
    (hp : List.Perm l₁ l₂) : sortDigests l₁ = sortDigests l₂ := by
  refine eq_of_perm_of_sorted_digests ?_ ?_ (sortDigests_sorted l₁) (sortDigests_sorted l₂)
  · intro x hx y hy
    exact hanti x ((List.mem_insertionSort digestLe).1 hx) y ((List.mem_insertionSort digestLe).1 hy)
  · exact ((sortDigests_perm l₁).trans hp).trans (sortDigests_perm l₂).symm

/-! ### Classification lemmas -/

theorem filesOf_map_snd (resolve : Bool) (d : String) :
    ∀ children, (filesOf resolve d children).map (·.2) = fileContents resolve children := by
  intro children
  induction children with
  | nil => rfl
  | cons x rest ih =>
    cases x <;> cases resolve <;>
      simp_all [filesOf, fileContents, classifyEntry, List.filterMap_cons]

theorem subdirsOf_map_snd (resolve : Bool) (d : String) :
    ∀ children, (subdirsOf resolve d children).map (·.2) = dirChildrenLists resolve children := by
  intro children
  induction children with
  | nil => rfl
  | cons x rest ih =>
    cases x <;> cases resolve <;>
      simp_all [subdirsOf, dirChildrenLists, classifyEntry, List.filterMap_cons]

theorem othersOf_eq_nil_of_hasOther (resolve : Bool) (d : String) :
    ∀ children, hasOther resolve children = false → othersOf resolve d children = [] := by
  intro children
  induction children with
  | nil => intro _; rfl
  | cons x rest ih =>
    intro h
    cases x <;> cases resolve <;>
      simp_all [othersOf, hasOther, classifyEntry, List.filterMap_cons]

/-! ### Size lemmas for fuel adequacy -/

theorem entrySize_le_of_mem : ∀ {children : List Entry} {x : Entry}, x ∈ children →
    entrySize x ≤ entriesSize children := by
  intro children
  induction children with
  | nil => intro x hx; simp at hx
  | cons y rest ih =>
    intro x hx
    rcases List.mem_cons.1 hx with h | h
    · subst h
      simp only [entriesSize]
      omega
    · have := ih h
      simp only [entriesSize]
      omega

theorem classify_asDir_size {resolve : Bool} {d : String} {x : Entry} {p : String}
    {cs : List Entry} (h : classifyEntry resolve d x = .asDir p cs) :
    entrySize x = 1 + entriesSize cs := by
  cases x <;> cases resolve <;>
    simp_all [classifyEntry, entrySize]

theorem entriesSize_lt_of_mem_subdirs {resolve : Bool} {d : String}
    {children : List Entry} {p : String} {cs : List Entry}
    (h : (p, cs) ∈ subdirsOf resolve d children) : entriesSize cs < entriesSize children := by
  obtain ⟨x, hx, hcx⟩ := List.mem_filterMap.1 h
  have hdir : classifyEntry resolve d x = .asDir p cs := by
    revert hcx
    cases hc : classifyEntry resolve d x <;> simp_all
  have h1 : entrySize x = 1 + entriesSize cs := classify_asDir_size hdir
  have h2 : entrySize x ≤ entriesSize children := entrySize_le_of_mem hx
  omega

theorem entriesSize_lt_of_mem_dirChildren {resolve : Bool}
    {children : List Entry} {cs : List Entry}
    (h : cs ∈ dirChildrenLists resolve children) : entriesSize cs < entriesSize children := by
  rw [← subdirsOf_map_snd resolve "" children] at h
  obtain ⟨⟨p, cs'⟩, hm, he⟩ := List.mem_map.1 h
  cases he
  exact entriesSize_lt_of_mem_subdirs hm

/-! ### Fuel independence and wrapper unfolding -/

theorem all_congr_left {α : Type} {l : List α} {f g : α → Bool}
    (h : ∀ a ∈ l, f a = g a) : l.all f = l.all g := by
  induction l with
  | nil => rfl
  | cons x rest ih =>
    simp only [List.all_cons]
    rw [h x (List.mem_cons_self x rest), ih (fun a ha => h a (List.mem_cons_of_mem x ha))]

theorem specStateF_indep (algo : Algo) (chunksize : Nat) (resolve : Bool) :
    ∀ f₁ f₂ children, entriesSize children < f₁ → entriesSize children < f₂ →
    specStateF algo chunksize resolve f₁ children = specStateF algo chunksize resolve f₂ children := by
  intro f₁
  induction f₁ with
  | zero => intro f₂ children h₁ _; omega
  | succ n ih =>
    intro f₂ children h₁ h₂
    cases f₂ with
    | zero => omega
    | succ m =>
      have hmap : (dirChildrenLists resolve children).map
            (fun l => algo (specStateF algo chunksize resolve n l)) =
          (dirChildrenLists resolve children).map
            (fun l => algo (specStateF algo chunksize resolve m l)) := by
        refine List.map_congr_left ?_
        intro l hl
        have hlt := entriesSize_lt_of_mem_dirChildren hl
        rw [ih m l (by omega) (by omega)]
      simp only [specStateF]
      rw [hmap]

theorem noOthersF_indep (resolve : Bool) :
    ∀ f₁ f₂ children, entriesSize children < f₁ → entriesSize children < f₂ →
    noOthersF resolve f₁ children = noOthersF resolve f₂ children := by
  intro f₁
  induction f₁ with
  | zero => intro f₂ children h₁ _; omega
  | succ n ih =>
    intro f₂ children h₁ h₂
    cases f₂ with
    | zero => omega
    | succ m =>
      have hall : (dirChildrenLists resolve children).all (noOthersF resolve n) =
          (dirChildrenLists resolve children).all (noOthersF resolve m) := by
        refine all_congr_left ?_
        intro l hl
        have hlt := entriesSize_lt_of_mem_dirChildren hl
        exact ih m l (by omega) (by omega)
      simp only [noOthersF]
      rw [hall]

theorem specEntriesF_indep (algo : Algo) (chunksize : Nat) (resolve : Bool) :
    ∀ f₁ f₂ d children, entriesSize children < f₁ → entriesSize children < f₂ →
    specEntriesF algo chunksize resolve f₁ d children =
      specEntriesF algo chunksize resolve f₂ d children := by
  intro f₁
  induction f₁ with
  | zero => intro f₂ d children h₁ _; omega
  | succ n ih =>
    intro f₂ d children h₁ h₂
    cases f₂ with
    | zero => omega
    | succ m =>
      have hflat : ((subdirsOf resolve d children).flatMap fun pcs =>
            specEntriesF algo chunksize resolve n pcs.1 pcs.2) =
          ((subdirsOf resolve d children).flatMap fun pcs =>
            specEntriesF algo chunksize resolve m pcs.1 pcs.2) := by
        refine List.flatMap_congr ?_
        intro pcs hpcs
        obtain ⟨p, cs⟩ := pcs
        have hlt := entriesSize_lt_of_mem_subdirs hpcs
        exact ih m p cs (by omega) (by omega)
      have hstate := specStateF_indep algo chunksize resolve (n + 1) (m + 1) children
        (by omega) (by omega)
      simp only [specEntriesF]
      rw [hflat, hstate]

theorem specState_eq (algo : Algo) (chunksize : Nat) (resolve : Bool) (children : List Entry) :
    specState algo chunksize resolve children =
      (sortDigests (fileDigestsAt algo chunksize resolve children) ++
        sortDigests (subdirDigestsAt algo chunksize resolve children)).flatten := by
  have hmap : (dirChildrenLists resolve children).map
        (fun l => algo (specStateF algo chunksize resolve (entriesSize children) l)) =
      (dirChildrenLists resolve children).map
        (fun l => algo (specState algo chunksize resolve l)) := by
    refine List.map_congr_left ?_
    intro l hl
    have hlt := entriesSize_lt_of_mem_dirChildren hl
    rw [specStateF_indep algo chunksize resolve (entriesSize children) (entriesSize l + 1) l
      (by omega) (by omega)]
    rfl
  show (sortDigests (fileDigestsAt algo chunksize resolve children) ++
      sortDigests ((dirChildrenLists resolve children).map
        (fun l => algo (specStateF algo chunksize resolve (entriesSize children) l)))).flatten = _
  rw [hmap]
  rfl

theorem specEntries_eq (algo : Algo) (chunksize : Nat) (resolve : Bool)
    (d : String) (children : List Entry) :
    specEntries algo chunksize resolve d children =
      ((filesOf resolve d children).map fun pc => (pc.1, checksum pc.2 chunksize)) ++
        ((subdirsOf resolve d children).flatMap fun pcs =>
          specEntries algo chunksize resolve pcs.1 pcs.2) ++
        [(d, specState algo chunksize resolve children)] := by
  have hflat : ((subdirsOf resolve d children).flatMap fun pcs =>
        specEntriesF algo chunksize resolve (entriesSize children) pcs.1 pcs.2) =
      ((subdirsOf resolve d children).flatMap fun pcs =>
        specEntries algo chunksize resolve pcs.1 pcs.2) := by
    refine List.flatMap_congr ?_
    intro pcs hpcs
    obtain ⟨p, cs⟩ := pcs
    have hlt := entriesSize_lt_of_mem_subdirs hpcs
    exact specEntriesF_indep algo chunksize resolve (entriesSize children) (entriesSize cs + 1)
      p cs (by omega) (by omega)
  show ((filesOf resolve d children).map fun pc => (pc.1, checksum pc.2 chunksize)) ++
      ((subdirsOf resolve d children).flatMap fun pcs =>
        specEntriesF algo chunksize resolve (entriesSize children) pcs.1 pcs.2) ++
      [(d, specStateF algo chunksize resolve (entriesSize children + 1) children)] = _
  rw [hflat]
  rfl

theorem noOthers_iff (resolve : Bool) (children : List Entry) :
    noOthers resolve children = true ↔
      (hasOther resolve children = false ∧
        ∀ l ∈ dirChildrenLists resolve children, noOthers resolve l = true) := by
  have h1 : noOthers resolve children =
      (!hasOther resolve children &&
        (dirChildrenLists resolve children).all (noOthersF resolve (entriesSize children))) := rfl
  rw [h1]
  simp only [Bool.and_eq_true, List.all_eq_true, Bool.not_eq_true']
  constructor
  · rintro ⟨ha, hb⟩
    refine ⟨ha, fun l hl => ?_⟩
    have hlt := entriesSize_lt_of_mem_dirChildren hl
    have hx := hb l hl
    show noOthersF resolve (entriesSize l + 1) l = true
    rw [noOthersF_indep resolve (entriesSize l + 1) (entriesSize children) l
      (by omega) (by omega)]
    exact hx
  · rintro ⟨ha, hb⟩
    refine ⟨ha, fun l hl => ?_⟩
    have hlt := entriesSize_lt_of_mem_dirChildren hl
    have hx := hb l hl
    have hx' : noOthersF resolve (entriesSize l + 1) l = true := hx
    rw [noOthersF_indep resolve (entriesSize l + 1) (entriesSize children) l
      (by omega) (by omega)] at hx'
    exact hx'

/-! ### Classification unfolding helpers -/

theorem filesOf_cons_asFile {resolve : Bool} {d : String} {x : Entry} {p : String}
    {c : List Nat} (rest : List Entry) (h : classifyEntry resolve d x = .asFile p c) :
    filesOf resolve d (x :: rest) = (p, c) :: filesOf resolve d rest := by
  simp [filesOf, List.filterMap_cons, h]

theorem filesOf_cons_not_asFile {resolve : Bool} {d : String} {x : Entry}
    (rest : List Entry) (h : ∀ p c, classifyEntry resolve d x ≠ .asFile p c) :
    filesOf resolve d (x :: rest) = filesOf resolve d rest := by
  cases hc : classifyEntry resolve d x with
  | asFile p c => exact absurd hc (h p c)
  | _ => simp [filesOf, List.filterMap_cons, hc]

theorem subdirsOf_cons_asDir {resolve : Bool} {d : String} {x : Entry} {p : String}
    {cs : List Entry} (rest : List Entry) (h : classifyEntry resolve d x = .asDir p cs) :
    subdirsOf resolve d (x :: rest) = (p, cs) :: subdirsOf resolve d rest := by
  simp [subdirsOf, List.filterMap_cons, h]

theorem subdirsOf_cons_not_asDir {resolve : Bool} {d : String} {x : Entry}
    (rest : List Entry) (h : ∀ p cs, classifyEntry resolve d x ≠ .asDir p cs) :
    subdirsOf resolve d (x :: rest) = subdirsOf resolve d rest := by
  cases hc : classifyEntry resolve d x with
  | asDir p cs => exact absurd hc (h p cs)
  | _ => simp [subdirsOf, List.filterMap_cons, hc]

/-! ### File loop lemmas -/

theorem fileLoop_fresh (chunksize : Nat) : ∀ (files : List (String × List Nat)) (cache : Cache),
    (∀ pc ∈ files, alistGet cache pc.1 = none) → (files.map (·.1)).Nodup →
    fileLoop chunksize files cache =
      (files.map (fun pc => checksum pc.2 chunksize),
       cache ++ files.map (fun pc => (pc.1, checksum pc.2 chunksize)),
       files.length) := by
  intro files
  induction files with
  | nil => intro cache _ _; simp [fileLoop]
  | cons pc rest ih =>
    intro cache hdisj hnd
    obtain ⟨p, c⟩ := pc
    have hget : alistGet cache p = none := hdisj (p, c) (List.mem_cons_self _ _)
    simp only [List.map_cons, List.nodup_cons] at hnd
    have hset : alistSet cache p (checksum c chunksize) =
        cache ++ [(p, checksum c chunksize)] := alistSet_eq_append _ hget
    have hdisj' : ∀ pc ∈ rest, alistGet (cache ++ [(p, checksum c chunksize)]) pc.1 = none := by
      intro qc hqc
      rw [alistGet_append]
      have h1 : alistGet cache qc.1 = none := hdisj qc (List.mem_cons_of_mem _ hqc)
      have hne : p ≠ qc.1 := by
        intro hh
        exact hnd.1 (hh ▸ List.mem_map.2 ⟨qc, hqc, rfl⟩)
      have h2 : alistGet [(p, checksum c chunksize)] qc.1 = none := by
        simp [alistGet, hne]
      rw [h1, h2]
      rfl
    simp only [fileLoop, hget, hset]
    rw [ih (cache ++ [(p, checksum c chunksize)]) hdisj' hnd.2]
    simp [List.append_assoc]

theorem fileLoop_cached (chunksize : Nat) :
    ∀ (files : List (String × List Nat)) (cache : Cache) (v : String × List Nat → HashState),
    (∀ pc ∈ files, alistGet cache pc.1 = some (v pc)) →
    fileLoop chunksize files cache = (files.map v, cache, 0) := by
  intro files
  induction files with
  | nil => intro cache v _; simp [fileLoop]
  | cons pc rest ih =>
    intro cache v hc
    obtain ⟨p, c⟩ := pc
    have hget : alistGet cache p = some (v (p, c)) := hc (p, c) (List.mem_cons_self _ _)
    simp only [fileLoop, hget]
    rw [ih cache v (fun qc hqc => hc qc (List.mem_cons_of_mem _ hqc))]
    rfl

theorem fileLoop_preserves (chunksize : Nat) :
    ∀ (files : List (String × List Nat)) (cache : Cache) (q : String) (w : HashState),
    alistGet cache q = some w →
    alistGet (fileLoop chunksize files cache).2.1 q = some w := by
  intro files
  induction files with
  | nil => intro cache q w h; simpa [fileLoop] using h
  | cons pc rest ih =>
    intro cache q w h
    obtain ⟨p, c⟩ := pc
    cases hget : alistGet cache p with
    | some hh =>
      simp only [fileLoop, hget]
      exact ih cache q w h
    | none =>
      have hne : q ≠ p := by
        intro hh
        rw [hh, hget] at h
        cases h
      simp only [fileLoop, hget]
      exact ih _ q w (by rw [alistGet_set_ne cache _ hne]; exact h)

/-! ### Path and cache-entry bookkeeping -/

theorem allPaths_eq (algo : Algo) (chunksize : Nat) (resolve : Bool)
    (d : String) (children : List Entry) :
    allPaths algo chunksize resolve d children =
      (filesOf resolve d children).map (·.1) ++
        ((subdirsOf resolve d children).flatMap fun pcs =>
          allPaths algo chunksize resolve pcs.1 pcs.2) ++ [d] := by
  unfold allPaths
  rw [specEntries_eq]
  simp [List.map_flatMap, List.map_map, Function.comp_def]

theorem allPaths_own_mem (algo : Algo) (chunksize : Nat) (resolve : Bool)
    (d : String) (children : List Entry) :
    d ∈ allPaths algo chunksize resolve d children := by
  rw [allPaths_eq]
  simp

theorem specEntries_own_mem (algo : Algo) (chunksize : Nat) (resolve : Bool)
    (d : String) (children : List Entry) :
    (d, specState algo chunksize resolve children) ∈
      specEntries algo chunksize resolve d children := by
  rw [specEntries_eq]
  simp

theorem alistGet_specEntries_own (algo : Algo) (chunksize : Nat) (resolve : Bool)
    (d : String) (children : List Entry)
    (h : (allPaths algo chunksize resolve d children).Nodup) :
    alistGet (specEntries algo chunksize resolve d children) d =
      some (specState algo chunksize resolve children) :=
  alistGet_of_nodup_mem h (specEntries_own_mem algo chunksize resolve d children)

/-! ### Subdir loop lemmas -/

theorem subdirLoop_noDirs (resolve : Bool)
    (recur : String → List Entry → Cache → HashResult) (d : String) :
    ∀ (l : List Entry) (cache : Cache),
    (∀ x ∈ l, ∀ p cs, classifyEntry resolve d x ≠ .asDir p cs) →
    subdirLoop resolve recur d l cache = (.ok ([], cache), 0, 0) := by
  intro l
  induction l with
  | nil => intro cache _; rfl
  | cons x rest ih =>
    intro cache h
    cases hc : classifyEntry resolve d x with
    | asDir p cs => exact absurd hc (h x (List.mem_cons_self _ _) p cs)
    | _ =>
      simp only [subdirLoop, hc]
      exact ih cache (fun y hy => h y (List.mem_cons_of_mem _ hy))

theorem subdirLoop_cached (resolve : Bool)
    (recur : String → List Entry → Cache → HashResult) (d : String) :
    ∀ (l : List Entry) (cache : Cache) (v : String × List Entry → HashState),
    (∀ pcs ∈ subdirsOf resolve d l, alistGet cache pcs.1 = some (v pcs)) →
    subdirLoop resolve recur d l cache =
      (.ok ((subdirsOf resolve d l).map v, cache), 0, 0) := by
  intro l
  induction l with
  | nil => intro cache v _; simp [subdirLoop, subdirsOf]
  | cons x rest ih =>
    intro cache v hcached
    cases hc : classifyEntry resolve d x with
    | asDir p cs =>
      have hsub := subdirsOf_cons_asDir rest hc
      have hget : alistGet cache p = some (v (p, cs)) := by
        have := hcached (p, cs) (by rw [hsub]; exact List.mem_cons_self _ _)
        exact this
      simp only [subdirLoop, hc, hget]
      rw [ih cache v (fun qcs hq => hcached qcs (by rw [hsub]; exact List.mem_cons_of_mem _ hq))]
      rw [hsub]
      rfl
    | skipped =>
      have hsub := @subdirsOf_cons_not_asDir resolve d x rest (by simp [hc])
      simp only [subdirLoop, hc]
      rw [ih cache v (fun qcs hq => hcached qcs (by rw [hsub]; exact hq)), hsub]
    | asFile p c =>
      have hsub := @subdirsOf_cons_not_asDir resolve d x rest (by simp [hc])
      simp only [subdirLoop, hc]
      rw [ih cache v (fun qcs hq => hcached qcs (by rw [hsub]; exact hq)), hsub]
    | asOther p =>
      have hsub := @subdirsOf_cons_not_asDir resolve d x rest (by simp [hc])
      simp only [subdirLoop, hc]
      rw [ih cache v (fun qcs hq => hcached qcs (by rw [hsub]; exact hq)), hsub]

theorem subdirLoop_fresh (algo : Algo) (chunksize : Nat) (resolve : Bool)
    (recur : String → List Entry → Cache → HashResult) (d : String) :
    ∀ (l : List Entry) (cache : Cache),
    (∀ p cs c, (p, cs) ∈ subdirsOf resolve d l →
      (∀ q ∈ allPaths algo chunksize resolve p cs, alistGet c q = none) →
      ∃ r k, recur p cs c =
        (.ok (specState algo chunksize resolve cs,
              c ++ specEntries algo chunksize resolve p cs), r, k)) →
    ((subdirsOf resolve d l).flatMap
      (fun pcs => allPaths algo chunksize resolve pcs.1 pcs.2)).Nodup →
    (∀ q ∈ (subdirsOf resolve d l).flatMap
      (fun pcs => allPaths algo chunksize resolve pcs.1 pcs.2),
      alistGet cache q = none) →
    ∃ r k, subdirLoop resolve recur d l cache =
      (.ok ((subdirsOf resolve d l).map (fun pcs => specState algo chunksize resolve pcs.2),
            cache ++ (subdirsOf resolve d l).flatMap
              (fun pcs => specEntries algo chunksize resolve pcs.1 pcs.2)), r, k) := by
  intro l
  induction l with
  | nil =>
    intro cache _ _ _
    exact ⟨0, 0, by simp [subdirLoop, subdirsOf]⟩
  | cons x rest ih =>
    intro cache hrecur hnd hdisj
    cases hc : classifyEntry resolve d x with
    | asDir p cs =>
      have hsub := subdirsOf_cons_asDir rest hc
      rw [hsub] at hnd hdisj hrecur
      rw [hsub]
      simp only [List.flatMap_cons, List.nodup_append] at hnd
      obtain ⟨hnd₁, hnd₂, hnddisj⟩ := hnd
      have hdisj₁ : ∀ q ∈ allPaths algo chunksize resolve p cs, alistGet cache q = none :=
        fun q hq => hdisj q (by simp [List.flatMap_cons, hq])
      -- the head subdirectory path is fresh in the incoming cache
      have hgetp : alistGet cache p = none :=
        hdisj₁ p (allPaths_own_mem algo chunksize resolve p cs)
      -- recursive call on the head subdirectory
      obtain ⟨r₁, k₁, hr⟩ := hrecur p cs cache (List.mem_cons_self _ _) hdisj₁
      -- the redundant cache[x] = dh write after the recursion leaves the cache unchanged
      have hgetown : alistGet (cache ++ specEntries algo chunksize resolve p cs) p =
          some (specState algo chunksize resolve cs) := by
        rw [alistGet_append, hgetp]
        rw [alistGet_specEntries_own algo chunksize resolve p cs hnd₁]
        rfl
      have hset : alistSet (cache ++ specEntries algo chunksize resolve p cs) p
          (specState algo chunksize resolve cs) =
          cache ++ specEntries algo chunksize resolve p cs := alistSet_eq_of_get hgetown
      -- the tail loop, over the grown cache
      have hdisjrest : ∀ q ∈ (subdirsOf resolve d rest).flatMap
          (fun pcs => allPaths algo chunksize resolve pcs.1 pcs.2),
          alistGet (cache ++ specEntries algo chunksize resolve p cs) q = none := by
        intro q hq
        rw [alistGet_append]
        have h1 : alistGet cache q = none := hdisj q (by
          rw [List.flatMap_cons]
          exact List.mem_append.2 (Or.inr hq))
        have h2 : alistGet (specEntries algo chunksize resolve p cs) q = none := by
          refine alistGet_eq_none ?_
          intro hmem
          exact hnddisj hmem hq
        rw [h1, h2]
        rfl
      have hrecur' : ∀ p' cs' c, (p', cs') ∈ subdirsOf resolve d rest →
          (∀ q ∈ allPaths algo chunksize resolve p' cs', alistGet c q = none) →
          ∃ r k, recur p' cs' c =
            (.ok (specState algo chunksize resolve cs',
                  c ++ specEntries algo chunksize resolve p' cs'), r, k) :=
        fun p' cs' c hm hd => hrecur p' cs' c (List.mem_cons_of_mem _ hm) hd
      obtain ⟨r₂, k₂, hrest⟩ :=
        ih (cache ++ specEntries algo chunksize resolve p cs) hrecur' hnd₂ hdisjrest
      refine ⟨r₁ + r₂, 1 + k₁ + k₂, ?_⟩
      simp only [subdirLoop, hc, hgetp, hr, hset, hrest]
      simp [List.append_assoc]
    | skipped =>
      have hsub := @subdirsOf_cons_not_asDir resolve d x rest (by simp [hc])
      rw [hsub] at hnd hdisj hrecur
      rw [hsub]
      simp only [subdirLoop, hc]
      exact ih cache hrecur hnd hdisj
    | asFile p c =>
      have hsub := @subdirsOf_cons_not_asDir resolve d x rest (by simp [hc])
      rw [hsub] at hnd hdisj hrecur
      rw [hsub]
      simp only [subdirLoop, hc]
      exact ih cache hrecur hnd hdisj
    | asOther p =>
      have hsub := @subdirsOf_cons_not_asDir resolve d x rest (by simp [hc])
      rw [hsub] at hnd hdisj hrecur
      rw [hsub]
      simp only [subdirLoop, hc]
      exact ih cache hrecur hnd hdisj

theorem nodup_of_mem_flatMap {α β : Type} {l : List α} {f : α → List β} {a : α}
    (hnd : (l.flatMap f).Nodup) (ha : a ∈ l) : (f a).Nodup := by
  induction l with
  | nil => simp at ha
  | cons x rest ih =>
    rw [List.flatMap_cons, List.nodup_append] at hnd
    rcases List.mem_cons.1 ha with h | h
    · exact h ▸ hnd.1
    · exact ih hnd.2.1 h

theorem allPaths_decomp (algo : Algo) (chunksize : Nat) (resolve : Bool)
    (d : String) (children : List Entry)
    (h : (allPaths algo chunksize resolve d children).Nodup) :
    ((filesOf resolve d children).map (·.1)).Nodup ∧
    ((subdirsOf resolve d children).flatMap
      (fun pcs => allPaths algo chunksize resolve pcs.1 pcs.2)).Nodup ∧
    (List.Disjoint ((filesOf resolve d children).map (·.1))
      ((subdirsOf resolve d children).flatMap
        (fun pcs => allPaths algo chunksize resolve pcs.1 pcs.2))) ∧
    d ∉ ((filesOf resolve d children).map (·.1)) ∧
    d ∉ ((subdirsOf resolve d children).flatMap
      (fun pcs => allPaths algo chunksize resolve pcs.1 pcs.2)) := by
  rw [allPaths_eq, List.nodup_append, List.nodup_append] at h
  obtain ⟨⟨h1, h2, h3⟩, _, h4⟩ := h
  refine ⟨h1, h2, h3, ?_, ?_⟩
  · intro hd
    exact h4 (List.mem_append.2 (Or.inl hd)) (List.mem_singleton.2 rfl)
  · intro hd
    exact h4 (List.mem_append.2 (Or.inr hd)) (List.mem_singleton.2 rfl)

theorem mem_allPaths_of_file (algo : Algo) (chunksize : Nat) (resolve : Bool)
    (d : String) (children : List Entry) {p : String} {c : List Nat}
    (h : (p, c) ∈ filesOf resolve d children) :
    p ∈ allPaths algo chunksize resolve d children := by
  rw [allPaths_eq]
  exact List.mem_append.2 (Or.inl (List.mem_append.2 (Or.inl (List.mem_map.2 ⟨(p, c), h, rfl⟩))))

theorem mem_allPaths_of_subdir (algo : Algo) (chunksize : Nat) (resolve : Bool)
    (d : String) (children : List Entry) {p q : String} {cs : List Entry}
    (hm : (p, cs) ∈ subdirsOf resolve d children)
    (hq : q ∈ allPaths algo chunksize resolve p cs) :
    q ∈ allPaths algo chunksize resolve d children := by
  rw [allPaths_eq]
  refine List.mem_append.2 (Or.inl (List.mem_append.2 (Or.inr ?_)))
  exact List.mem_flatMap.2 ⟨(p, cs), hm, hq⟩

theorem mem_dirChildren_of_subdir {resolve : Bool} {d : String} {children : List Entry}
    {p : String} {cs : List Entry} (h : (p, cs) ∈ subdirsOf resolve d children) :
    cs ∈ dirChildrenLists resolve children := by
  rw [← subdirsOf_map_snd resolve d children]
  exact List.mem_map.2 ⟨(p, cs), h, rfl⟩

/-- Master lemma: a `hash_dir` traversal over a well-formed subtree (no
unsupported entries, no repeated paths) starting from a cache that contains
none of the subtree's paths succeeds, produces exactly the cache-free
`specState`, and appends exactly the `specEntries` to the cache. -/
theorem hash_dirF_fresh (algo : Algo) (chunksize : Nat) (resolve : Bool) :
    ∀ (fuel : Nat) (d : String) (children : List Entry) (cache : Cache),
    entriesSize children < fuel →
    noOthers resolve children = true →
    (allPaths algo chunksize resolve d children).Nodup →
    (∀ q ∈ allPaths algo chunksize resolve d children, alistGet cache q = none) →
    ∃ r k, hash_dirF algo chunksize resolve fuel d children cache =
      (.ok (specState algo chunksize resolve children,
            cache ++ specEntries algo chunksize resolve d children), r, k) := by
  intro fuel
  induction fuel with
  | zero => intro d children cache h; omega
  | succ n ih =>
    intro d children cache hfuel hno hnd hdisj
    obtain ⟨hhas, hnosub⟩ := (noOthers_iff resolve children).1 hno
    have hothers : othersOf resolve d children = [] :=
      othersOf_eq_nil_of_hasOther resolve d children hhas
    obtain ⟨hndf, hndsub, hdisjfs, hdn_f, hdn_s⟩ :=
      allPaths_decomp algo chunksize resolve d children hnd
    -- the file loop writes one fresh entry per file
    have hfl := fileLoop_fresh chunksize (filesOf resolve d children) cache
      (by
        intro pc hpc
        obtain ⟨p, c⟩ := pc
        exact hdisj p (mem_allPaths_of_file algo chunksize resolve d children hpc)) hndf
    -- the subdir loop recurses freshly into every subdirectory
    have hrecur : ∀ p cs c, (p, cs) ∈ subdirsOf resolve d children →
        (∀ q ∈ allPaths algo chunksize resolve p cs, alistGet c q = none) →
        ∃ r k, hash_dirF algo chunksize resolve n p cs c =
          (.ok (specState algo chunksize resolve cs,
                c ++ specEntries algo chunksize resolve p cs), r, k) := by
      intro p cs c hm hd
      have hsize : entriesSize cs < entriesSize children := entriesSize_lt_of_mem_subdirs hm
      have hnocs : noOthers resolve cs = true := hnosub cs (mem_dirChildren_of_subdir hm)
      have hndcs : (allPaths algo chunksize resolve p cs).Nodup :=
        @nodup_of_mem_flatMap _ _ (subdirsOf resolve d children)
          (fun pcs => allPaths algo chunksize resolve pcs.1 pcs.2) (p, cs) hndsub hm
      exact ih p cs c (by omega) hnocs hndcs hd
    have hdisjsub : ∀ q ∈ (subdirsOf resolve d children).flatMap
        (fun pcs => allPaths algo chunksize resolve pcs.1 pcs.2),
        alistGet (cache ++ (filesOf resolve d children).map
          (fun pc => (pc.1, checksum pc.2 chunksize))) q = none := by
      intro q hq
      rw [alistGet_append]
      obtain ⟨pcs, hpcs, hqin⟩ := List.mem_flatMap.1 hq
      have h1 : alistGet cache q = none :=
        hdisj q (mem_allPaths_of_subdir algo chunksize resolve d children hpcs hqin)
      have h2 : alistGet ((filesOf resolve d children).map
          (fun pc => (pc.1, checksum pc.2 chunksize))) q = none := by
        refine alistGet_eq_none ?_
        rw [List.map_map]
        intro hmem
        refine hdisjfs ?_ hq
        simpa using hmem
      rw [h1, h2]
      rfl
    obtain ⟨r₂, k₂, hsl⟩ := subdirLoop_fresh algo chunksize resolve
      (hash_dirF algo chunksize resolve n) d children
      (cache ++ (filesOf resolve d children).map (fun pc => (pc.1, checksum pc.2 chunksize)))
      hrecur hndsub hdisjsub
    -- the combined state equals the cache-free characterization
    have hstate : ((sortStates algo ((filesOf resolve d children).map
          (fun pc => checksum pc.2 chunksize)) ++
        sortStates algo ((subdirsOf resolve d children).map
          (fun pcs => specState algo chunksize resolve pcs.2))).map (digest algo)).flatten =
        specState algo chunksize resolve children := by
      rw [specState_eq, List.map_append, sortStates_map_digest, sortStates_map_digest]
      congr 2
      · unfold fileDigestsAt
        rw [← filesOf_map_snd resolve d children, List.map_map, List.map_map]
        rfl
      · unfold subdirDigestsAt
        rw [← subdirsOf_map_snd resolve d children, List.map_map, List.map_map]
        rfl
    -- the final cache[d] = h append
    have hgetd : alistGet (cache ++ (filesOf resolve d children).map
        (fun pc => (pc.1, checksum pc.2 chunksize)) ++
        (subdirsOf resolve d children).flatMap
          (fun pcs => specEntries algo chunksize resolve pcs.1 pcs.2)) d = none := by
      rw [alistGet_append, alistGet_append]
      have h1 : alistGet cache d =
          none := hdisj d (allPaths_own_mem algo chunksize resolve d children)
      have h2 : alistGet ((filesOf resolve d children).map
          (fun pc => (pc.1, checksum pc.2 chunksize))) d = none := by
        refine alistGet_eq_none ?_
        rw [List.map_map]
        intro hmem
        exact hdn_f (by simpa using hmem)
      have h3 : alistGet ((subdirsOf resolve d children).flatMap
          (fun pcs => specEntries algo chunksize resolve pcs.1 pcs.2)) d = none := by
        refine alistGet_eq_none ?_
        intro hmem
        refine hdn_s ?_
        obtain ⟨e, he, hed⟩ := List.mem_map.1 hmem
        obtain ⟨pcs, hpcs, hein⟩ := List.mem_flatMap.1 he
        refine List.mem_flatMap.2 ⟨pcs, hpcs, ?_⟩
        rw [← hed]
        exact List.mem_map.2 ⟨e, hein, rfl⟩
      rw [h1, h2, h3]
      rfl
    refine ⟨(filesOf resolve d children).length + r₂, k₂, ?_⟩
    simp only [hash_dirF]
    rw [hothers]
    simp only [List.length_nil, gt_iff_lt, Nat.lt_irrefl, if_false]
    rw [hfl]
    simp only []
    rw [hsl]
    simp only [hstate]
    rw [alistSet_eq_append _ hgetd]
    rw [specEntries_eq]
    simp [List.append_assoc]

/-- Master lemma, wrapper form. -/
theorem hash_dir_fresh (algo : Algo) (chunksize : Nat) (resolve : Bool)
    (d : String) (children : List Entry) (cache : Cache)
    (hno : noOthers resolve children = true)
    (hnd : (allPaths algo chunksize resolve d children).Nodup)
    (hdisj : ∀ q ∈ allPaths algo chunksize resolve d children, alistGet cache q = none) :
    ∃ r k, hash_dir algo chunksize resolve d children cache =
      (.ok (specState algo chunksize resolve children,
            cache ++ specEntries algo chunksize resolve d children), r, k) :=
  hash_dirF_fresh algo chunksize resolve (entriesSize children + 1) d children cache
    (by omega) hno hnd hdisj

/-! ### Cache preservation (write-once behaviour) -/

theorem subdirLoop_preserves (resolve : Bool)
    (recur : String → List Entry → Cache → HashResult) (d : String)
    (Hrec : ∀ p cs c h c₂ r k, alistGet c p = none →
      recur p cs c = (.ok (h, c₂), r, k) →
      ∀ q w, q ≠ p → alistGet c q = some w → alistGet c₂ q = some w) :
    ∀ (l : List Entry) (cache : Cache) (hs : List HashState) (c' : Cache) (r k : Nat),
    subdirLoop resolve recur d l cache = (.ok (hs, c'), r, k) →
    ∀ q w, alistGet cache q = some w → alistGet c' q = some w := by
  intro l
  induction l with
  | nil =>
    intro cache hs c' r k heq q w hw
    simp only [subdirLoop] at heq
    obtain ⟨h1, h2⟩ := Prod.mk.injEq .. ▸ heq
    injection h1 with h1
    injection h1 with _ h1
    rw [← h1]
    exact hw
  | cons x rest ih =>
    intro cache hs c' r k heq q w hw
    cases hc : classifyEntry resolve d x with
    | asDir p cs =>
      cases hget : alistGet cache p with
      | some hh =>
        rcases h2 : subdirLoop resolve recur d rest cache with ⟨res2, r2, k2⟩
        cases res2 with
        | ok v =>
          obtain ⟨hs2, c2⟩ := v
          simp only [subdirLoop, hc, hget, h2] at heq
          obtain ⟨he, _⟩ := Prod.mk.injEq .. ▸ heq
          injection he with he
          injection he with _ he
          rw [← he]
          exact ih cache hs2 c2 r2 k2 h2 q w hw
        | error e =>
          simp only [subdirLoop, hc, hget, h2] at heq
          obtain ⟨he, _⟩ := Prod.mk.injEq .. ▸ heq
          cases he
      | none =>
        have hqp : q ≠ p := by
          intro hqp
          rw [hqp, hget] at hw
          cases hw
        rcases hr : recur p cs cache with ⟨res1, r1, k1⟩
        cases res1 with
        | error e =>
          simp only [subdirLoop, hc, hget, hr] at heq
          obtain ⟨he, _⟩ := Prod.mk.injEq .. ▸ heq
          cases he
        | ok v =>
          obtain ⟨dh, cache₂⟩ := v
          rcases h2 : subdirLoop resolve recur d rest (alistSet cache₂ p dh) with ⟨res2, r2, k2⟩
          cases res2 with
          | error e =>
            simp only [subdirLoop, hc, hget, hr, h2] at heq
            obtain ⟨he, _⟩ := Prod.mk.injEq .. ▸ heq
            cases he
          | ok v2 =>
            obtain ⟨hs2, c2⟩ := v2
            simp only [subdirLoop, hc, hget, hr, h2] at heq
            obtain ⟨he, _⟩ := Prod.mk.injEq .. ▸ heq
            injection he with he
            injection he with _ he
            rw [← he]
            have hw₂ : alistGet cache₂ q = some w := Hrec p cs cache dh cache₂ r1 k1 hget hr q w hqp hw
            have hw₃ : alistGet (alistSet cache₂ p dh) q = some w := by
              rw [alistGet_set_ne cache₂ dh hqp]
              exact hw₂
            exact ih (alistSet cache₂ p dh) hs2 c2 r2 k2 h2 q w hw₃
    | skipped =>
      simp only [subdirLoop, hc] at heq
      exact ih cache hs c' r k heq q w hw
    | asFile pp cc =>
      simp only [subdirLoop, hc] at heq
      exact ih cache hs c' r k heq q w hw
    | asOther pp =>
      simp only [subdirLoop, hc] at heq
      exact ih cache hs c' r k heq q w hw

theorem hash_dirF_preserves (algo : Algo) (chunksize : Nat) (resolve : Bool) :
    ∀ (fuel : Nat) (d : String) (children : List Entry) (cache : Cache)
      (h : HashState) (c' : Cache) (r k : Nat),
    hash_dirF algo chunksize resolve fuel d children cache = (.ok (h, c'), r, k) →
    (∀ q w, q ≠ d → alistGet cache q = some w → alistGet c' q = some w) ∧
    alistGet c' d = some h := by
  intro fuel
  induction fuel with
  | zero =>
    intro d children cache h c' r k heq
    simp only [hash_dirF] at heq
    obtain ⟨he, _⟩ := Prod.mk.injEq .. ▸ heq
    cases he
  | succ n ih =>
    intro d children cache h c' r k heq
    simp only [hash_dirF] at heq
    by_cases hoth : (othersOf resolve d children).length > 0
    · rw [if_pos hoth] at heq
      obtain ⟨he, _⟩ := Prod.mk.injEq .. ▸ heq
      cases he
    · rw [if_neg hoth] at heq
      rcases hfl : fileLoop chunksize (filesOf resolve d children) cache with ⟨fhs, c₁, reads⟩
      rcases hsl : subdirLoop resolve (hash_dirF algo chunksize resolve n) d children c₁
        with ⟨res2, r2, k2⟩
      cases res2 with
      | error e =>
        rw [hfl] at heq
        simp only [hsl] at heq
        obtain ⟨he, _⟩ := Prod.mk.injEq .. ▸ heq
        cases he
      | ok v2 =>
        obtain ⟨shs, c₂⟩ := v2
        rw [hfl] at heq
        simp only [hsl] at heq
        obtain ⟨he, _⟩ := Prod.mk.injEq .. ▸ heq
        injection he with he
        obtain ⟨hh, hcc⟩ := Prod.mk.injEq .. ▸ he
        have Hrec : ∀ p cs c hv cv r k, alistGet c p = none →
            hash_dirF algo chunksize resolve n p cs c = (.ok (hv, cv), r, k) →
            ∀ q w, q ≠ p → alistGet c q = some w → alistGet cv q = some w :=
          fun p cs c hv cv rr kk _ hrec q w hqp hget =>
            (ih p cs c hv cv rr kk hrec).1 q w hqp hget
        constructor
        · intro q w hqd hget
          have h₁ : alistGet c₁ q = some w := by
            have := fileLoop_preserves chunksize (filesOf resolve d children) cache q w hget
            rw [hfl] at this
            exact this
          have h₂ : alistGet c₂ q = some w :=
            subdirLoop_preserves resolve (hash_dirF algo chunksize resolve n) d Hrec
              children c₁ shs c₂ r2 k2 hsl q w h₁
          rw [← hcc, alistGet_set_ne c₂ _ hqd]
          exact h₂
        · rw [← hcc, ← hh]
          exact alistGet_set_self c₂ d _

/-! ### getdupes lemmas -/

theorem alistGet_byHashAdd : ∀ (m : List (String × List String)) (hx p q : String),
    alistGet (byHashAdd m hx p) q =
      if q = hx then some ((alistGet m q).getD [] ++ [p]) else alistGet m q := by
  intro m
  induction m with
  | nil =>
    intro hx p q
    by_cases h : q = hx
    · subst h
      simp [byHashAdd, alistGet]
    · simp [byHashAdd, alistGet, h, Ne.symm h]
  | cons e rest ih =>
    intro hx p q
    obtain ⟨k, ps⟩ := e
    by_cases hk : k = hx
    · subst hk
      by_cases hq : q = k
      · subst hq
        simp [byHashAdd, alistGet]
      · simp [byHashAdd, alistGet, hq, Ne.symm hq]
    · by_cases hq : k = q
      · subst hq
        have hqx : ¬ k = hx := hk
        simp [byHashAdd, alistGet, hk, hqx]
      · simp [byHashAdd, alistGet, hk, hq, ih]

theorem byHashAdd_keys : ∀ (m : List (String × List String)) (hx p : String),
    (byHashAdd m hx p).map (·.1) =
      if hx ∈ m.map (·.1) then m.map (·.1) else m.map (·.1) ++ [hx] := by
  intro m
  induction m with
  | nil => intro hx p; simp [byHashAdd]
  | cons e rest ih =>
    intro hx p
    obtain ⟨k, ps⟩ := e
    by_cases hk : k = hx
    · subst hk
      simp [byHashAdd]
    · have : hx ∈ (k, ps).1 :: rest.map (·.1) ↔ hx ∈ rest.map (·.1) := by
        simp [Ne.symm hk]
      by_cases hmem : hx ∈ rest.map (·.1)
      · simp [byHashAdd, hk, ih, hmem, Ne.symm hk]
      · simp [byHashAdd, hk, ih, hmem, Ne.symm hk]

theorem byHash_foldl_keys_nodup : ∀ (cache : List (String × String))
    (m : List (String × List String)), (m.map (·.1)).Nodup →
    ((cache.foldl (fun m e => byHashAdd m e.2 e.1) m).map (·.1)).Nodup := by
  intro cache
  induction cache with
  | nil => intro m h; simpa [List.foldl] using h
  | cons e rest ih =>
    intro m h
    rw [List.foldl_cons]
    refine ih (byHashAdd m e.2 e.1) ?_
    rw [byHashAdd_keys]
    by_cases hmem : e.2 ∈ m.map (·.1)
    · simpa [hmem] using h
    · rw [if_neg hmem]
      simp only [List.nodup_append, List.nodup_cons]
      exact ⟨h, by simp, by simpa [List.disjoint_singleton] using hmem⟩

theorem byHash_keys_nodup (cache : List (String × String)) :
    ((byHash cache).map (·.1)).Nodup :=
  byHash_foldl_keys_nodup cache [] (by simp)

theorem alistGet_byHash_foldl : ∀ (cache : List (String × String))
    (m : List (String × List String)) (hx : String),
    alistGet (cache.foldl (fun m e => byHashAdd m e.2 e.1) m) hx =
      (match alistGet m hx with
       | some ps => some (ps ++ (cache.filter (fun e => e.2 = hx)).map (·.1))
       | none =>
         if ((cache.filter (fun e => e.2 = hx)).map (·.1)).isEmpty then none
         else some ((cache.filter (fun e => e.2 = hx)).map (·.1))) := by
  intro cache
  induction cache with
  | nil =>
    intro m hx
    cases h : alistGet m hx <;> simp [List.foldl, h]
  | cons e rest ih =>
    intro m hx
    rw [List.foldl_cons, ih]
    rw [alistGet_byHashAdd]
    by_cases he : e.2 = hx
    · have hf : (e :: rest).filter (fun x => x.2 = hx) = e :: rest.filter (fun x => x.2 = hx) := by
        simp [List.filter_cons, he]
      rw [hf]
      have hqx : hx = e.2 := he.symm
      rw [if_pos hqx]
      cases h : alistGet m hx with
      | some ps => simp [h]
      | none => simp [h]
    · have hf : (e :: rest).filter (fun x => x.2 = hx) = rest.filter (fun x => x.2 = hx) := by
        simp [List.filter_cons, he]
      rw [hf]
      have hqx : ¬ hx = e.2 := fun hh => he hh.symm
      rw [if_neg hqx]

theorem alistGet_filter {β : Type} (f : String × β → Bool) :
    ∀ (l : List (String × β)) (q : String), ((l.map (·.1)).Nodup) →
    alistGet (l.filter f) q =
      (match alistGet l q with
       | some v => if f (q, v) then some v else none
       | none => none) := by
  intro l
  induction l with
  | nil => intro q _; simp [alistGet]
  | cons e rest ih =>
    intro q hnd
    obtain ⟨k, v⟩ := e
    simp only [List.map_cons, List.nodup_cons] at hnd
    by_cases hk : k = q
    · subst hk
      have hnone : alistGet (rest.filter f) k = none := by
        refine alistGet_eq_none ?_
        intro hmem
        refine hnd.1 ?_
        obtain ⟨e', he', hke⟩ := List.mem_map.1 hmem
        exact List.mem_map.2 ⟨e', List.mem_of_mem_filter he', hke⟩
      by_cases hf : f (k, v)
      · simp [List.filter_cons, hf, alistGet]
      · simp [List.filter_cons, hf, alistGet, hnone]
    · by_cases hf : f (k, v)
      · simp [List.filter_cons, hf, alistGet, hk, ih q hnd.2]
      · simp [List.filter_cons, hf, alistGet, hk, ih q hnd.2]

/-! ### Helpers for the claim theorems -/

/-- The HASH state `hash_dir` assembles from its two sorted groups equals the
cache-free characterization. -/
theorem specState_assembly (algo : Algo) (chunksize : Nat) (resolve : Bool)
    (d : String) (children : List Entry) :
    ((sortStates algo ((filesOf resolve d children).map
        (fun pc => checksum pc.2 chunksize)) ++
      sortStates algo ((subdirsOf resolve d children).map
        (fun pcs => specState algo chunksize resolve pcs.2))).map (digest algo)).flatten =
      specState algo chunksize resolve children := by
  rw [specState_eq, List.map_append, sortStates_map_digest, sortStates_map_digest]
  congr 2
  · unfold fileDigestsAt
    rw [← filesOf_map_snd resolve d children, List.map_map, List.map_map]
    rfl
  · unfold subdirDigestsAt
    rw [← subdirsOf_map_snd resolve d children, List.map_map, List.map_map]
    rfl

theorem alistGet_specEntries_file (algo : Algo) (chunksize : Nat) (resolve : Bool)
    (d : String) (children : List Entry) {p : String} {c : List Nat}
    (hnd : (allPaths algo chunksize resolve d children).Nodup)
    (hm : (p, c) ∈ filesOf resolve d children) :
    alistGet (specEntries algo chunksize resolve d children) p =
      some (checksum c chunksize) := by
  refine alistGet_of_nodup_mem hnd ?_
  rw [specEntries_eq]
  refine List.mem_append.2 (Or.inl (List.mem_append.2 (Or.inl ?_)))
  exact List.mem_map.2 ⟨(p, c), hm, rfl⟩

theorem alistGet_specEntries_subdir (algo : Algo) (chunksize : Nat) (resolve : Bool)
    (d : String) (children : List Entry) {p : String} {cs : List Entry}
    (hnd : (allPaths algo chunksize resolve d children).Nodup)
    (hm : (p, cs) ∈ subdirsOf resolve d children) :
    alistGet (specEntries algo chunksize resolve d children) p =
      some (specState algo chunksize resolve cs) := by
  refine alistGet_of_nodup_mem hnd ?_
  rw [specEntries_eq]
  refine List.mem_append.2 (Or.inl (List.mem_append.2 (Or.inr ?_)))
  exact List.mem_flatMap.2 ⟨(p, cs), hm, specEntries_own_mem algo chunksize resolve p cs⟩

theorem classifyEntry_skipped_of_symlink {x : Entry} (d : String)
    (h : isSymlinkEntry x = true) : classifyEntry false d x = .skipped := by
  cases x <;> simp_all [isSymlinkEntry, classifyEntry]

theorem filesOf_symlinks_nil {d : String} {children : List Entry}
    (h : ∀ x ∈ children, isSymlinkEntry x = true) : filesOf false d children = [] := by
  induction children with
  | nil => rfl
  | cons x rest ih =>
    rw [@filesOf_cons_not_asFile false d x rest (by
      intro p c hc
      rw [classifyEntry_skipped_of_symlink d (h x (List.mem_cons_self _ _))] at hc
      cases hc)]
    exact ih (fun y hy => h y (List.mem_cons_of_mem _ hy))

theorem othersOf_symlinks_nil {d : String} {children : List Entry}
    (h : ∀ x ∈ children, isSymlinkEntry x = true) : othersOf false d children = [] := by
  induction children with
  | nil => rfl
  | cons x rest ih =>
    have hskip := classifyEntry_skipped_of_symlink d (h x (List.mem_cons_self _ _))
    have : othersOf false d (x :: rest) = othersOf false d rest := by
      simp [othersOf, List.filterMap_cons, hskip]
    rw [this]
    exact ih (fun y hy => h y (List.mem_cons_of_mem _ hy))

/-! ### Claim theorems -/

/-- Claim C1, counterexample: the directory digest is NOT computed by one
combined hex-string sort of all child digests.  For a directory `/r` holding a
file with digest `ff` and a subdirectory with digest `00`, the source feeds
the file digest first (state `[255, 0]`), while the claimed single combined
sort would feed `00` before `ff` (state `[0, 255]`). -/
theorem c1_counterexample :
    resState (hash_dir algoId 1 true "/r"
      [.file "f" [255], .dir "s" [.file "g" [0]]] []) = some [255, 0] ∧
    combinedState algoId 1 true [.file "f" [255], .dir "s" [.file "g" [0]]] = [0, 255] ∧
    ([255, 0] : List Nat) ≠ [0, 255] :=
  ⟨rfl, rfl, by decide⟩

/-- Claim C1, amended: for every directory (well-formed: no unsupported
entries, no repeated paths) hashed with a fresh cache, the digest is obtained
by sorting the file digests by canonical hexadecimal representation among
themselves, sorting the subdirectory digests by canonical hexadecimal
representation among themselves, and feeding the raw digest bytes of the
sorted file group first and then the sorted subdirectory group into a fresh
hash state. -/
theorem c1_amended (algo : Algo) (chunksize : Nat) (resolve : Bool) (d : String)
    (children : List Entry)
    (hno : noOthers resolve children = true)
    (hnd : (allPaths algo chunksize resolve d children).Nodup) :
    resState (hash_dir algo chunksize resolve d children []) =
      some ((sortDigests (fileDigestsAt algo chunksize resolve children) ++
        sortDigests (subdirDigestsAt algo chunksize resolve children)).flatten) := by
  obtain ⟨r, k, heq⟩ := hash_dir_fresh algo chunksize resolve d children [] hno hnd
    (fun q _ => rfl)
  rw [heq]
  simp only [resState]
  rw [← specState_eq]

/-- Witness for the amended claim C1 at a concrete directory. -/
theorem c1_amended_witness :
    noOthers true [.file "f" [255], .dir "s" [.file "g" [0]]] = true ∧
    (allPaths algoId 1 true "/r" [.file "f" [255], .dir "s" [.file "g" [0]]]).Nodup ∧
    resState (hash_dir algoId 1 true "/r" [.file "f" [255], .dir "s" [.file "g" [0]]] []) =
      some ((sortDigests (fileDigestsAt algoId 1 true
          [.file "f" [255], .dir "s" [.file "g" [0]]]) ++
        sortDigests (subdirDigestsAt algoId 1 true
          [.file "f" [255], .dir "s" [.file "g" [0]]])).flatten) :=
  ⟨by decide, by decide,
    c1_amended algoId 1 true "/r" [.file "f" [255], .dir "s" [.file "g" [0]]]
      (by decide) (by decide)⟩

/-- Claim C2, counterexample: two directories with the same multiset of child
digests (computed with the same algorithm and chunksize) can receive different
digests when the children are partitioned differently between files and
subdirectories: a file with digest `00` plus a subdirectory with digest `ff`
versus a file with digest `ff` plus a subdirectory with digest `00`. -/
theorem c2_counterexample :
    List.Perm (childDigestsAt algoId 1 true [.file "f" [0], .dir "s" [.file "g" [255]]])
      (childDigestsAt algoId 1 true [.file "f" [255], .dir "s" [.file "g" [0]]]) ∧
    resState (hash_dir algoId 1 true "/r" [.file "f" [0], .dir "s" [.file "g" [255]]] []) ≠
      resState (hash_dir algoId 1 true "/r" [.file "f" [255], .dir "s" [.file "g" [0]]] []) :=
  ⟨by decide, by decide⟩

/-- Claim C2, amended: the directory digest depends only on the multiset of
file child digests and the multiset of subdirectory child digests (for a
byte-valued algorithm and well-formed trees hashed with a fresh cache): it is
independent of names, of filesystem iteration order, and of the directory's
own path, but not of the file/subdirectory partition. -/
theorem c2_amended (algo : Algo) (chunksize : Nat) (resolve : Bool)
    (d₁ d₂ : String) (ch₁ ch₂ : List Entry)
    (hbytes : BytesOnly algo)
    (hno₁ : noOthers resolve ch₁ = true)
    (hnd₁ : (allPaths algo chunksize resolve d₁ ch₁).Nodup)
    (hno₂ : noOthers resolve ch₂ = true)
    (hnd₂ : (allPaths algo chunksize resolve d₂ ch₂).Nodup)
    (hfiles : List.Perm (fileDigestsAt algo chunksize resolve ch₁)
      (fileDigestsAt algo chunksize resolve ch₂))
    (hdirs : List.Perm (subdirDigestsAt algo chunksize resolve ch₁)
      (subdirDigestsAt algo chunksize resolve ch₂)) :
    resState (hash_dir algo chunksize resolve d₁ ch₁ []) =
      resState (hash_dir algo chunksize resolve d₂ ch₂ []) := by
  obtain ⟨r₁, k₁, heq₁⟩ := hash_dir_fresh algo chunksize resolve d₁ ch₁ [] hno₁ hnd₁
    (fun q _ => rfl)
  obtain ⟨r₂, k₂, heq₂⟩ := hash_dir_fresh algo chunksize resolve d₂ ch₂ [] hno₂ hnd₂
    (fun q _ => rfl)
  rw [heq₁, heq₂]
  simp only [resState, Option.some.injEq]
  have hbf : ∀ ch, ∀ a ∈ fileDigestsAt algo chunksize resolve ch, ∀ x ∈ a, x < 256 := by
    intro ch a ha x hx
    obtain ⟨c, _, hc⟩ := List.mem_map.1 ha
    exact hbytes _ x (hc ▸ hx)
  have hbd : ∀ ch, ∀ a ∈ subdirDigestsAt algo chunksize resolve ch, ∀ x ∈ a, x < 256 := by
    intro ch a ha x hx
    obtain ⟨l, _, hl⟩ := List.mem_map.1 ha
    exact hbytes _ x (hl ▸ hx)
  have hf : sortDigests (fileDigestsAt algo chunksize resolve ch₁) =
      sortDigests (fileDigestsAt algo chunksize resolve ch₂) :=
    sortDigests_eq_of_perm
      (fun a ha b hb hk => hexKey_inj (hbf ch₁ a ha) (hbf ch₂ b hb) hk) hfiles
  have hd : sortDigests (subdirDigestsAt algo chunksize resolve ch₁) =
      sortDigests (subdirDigestsAt algo chunksize resolve ch₂) :=
    sortDigests_eq_of_perm
      (fun a ha b hb hk => hexKey_inj (hbd ch₁ a ha) (hbd ch₂ b hb) hk) hdirs
  rw [specState_eq, specState_eq, hf, hd]

/-- Witness for the amended claim C2: two directories with permuted file
contents under different names get the same digest. -/
theorem c2_amended_witness :
    BytesOnly algoMod ∧
    List.Perm (fileDigestsAt algoMod 1 true [.file "a" [1], .file "b" [2]])
      (fileDigestsAt algoMod 1 true [.file "x" [2], .file "y" [1]]) ∧
    resState (hash_dir algoMod 1 true "/p" [.file "a" [1], .file "b" [2]] []) =
      resState (hash_dir algoMod 1 true "/q" [.file "x" [2], .file "y" [1]] []) :=
  ⟨fun l b hb => by
      obtain ⟨x, _, hx⟩ := List.mem_map.1 hb
      omega,
   by decide,
   c2_amended algoMod 1 true "/p" "/q" [.file "a" [1], .file "b" [2]]
     [.file "x" [2], .file "y" [1]]
     (fun l b hb => by
       obtain ⟨x, _, hx⟩ := List.mem_map.1 hb
       omega)
     (by decide) (by decide) (by decide) (by decide) (by decide) (by decide)⟩

/-- Claim C3: evaluation of the code at the failing input.  `hash_dir('/a')`
is called once while `f` holds byte `0`, then `f` changes to byte `1` and
`hash_dir('/a')` is called again without a cache argument.  Because CPython
evaluates the default `cache={}` once and `hash_dir` mutates it in place, the
second call sees the first call's entries: it returns the stale digest of the
old content with zero file reads, whereas a call starting from an empty cache
(what the claim asserts) reads the file once and returns the digest of the
new content. -/
theorem c3_mutable_default_cache :
    (hash_dir_noCacheTwice algoId 1 true "/a" [.file "f" [0]] "/a" [.file "f" [1]]).2 =
      (.ok ([0], [("/a/f", [0]), ("/a", [0])]), 0, 0) ∧
    hash_dir algoId 1 true "/a" [.file "f" [1]] [] =
      (.ok ([1], [("/a/f", [1]), ("/a", [1])]), 1, 0) ∧
    resState (hash_dir_noCacheTwice algoId 1 true "/a" [.file "f" [0]] "/a" [.file "f" [1]]).2 ≠
      resState (hash_dir algoId 1 true "/a" [.file "f" [1]] []) :=
  ⟨rfl, rfl, by decide⟩

/-- Claim C4: a directory with at least one direct child classified into
`others` (neither a regular file nor a directory after symlink
resolution/exclusion) makes `hash_dir` raise (modelled
`unsupportedEntryKind`, the source's `NotImplementedError`): no digest is
returned, no file of that directory is read (read counter 0), and no
recursion happens — the unsupported entry is never skipped. -/
theorem c4_unsupported_entry (algo : Algo) (chunksize : Nat) (resolve : Bool)
    (d : String) (children : List Entry) (cache : Cache)
    (h : othersOf resolve d children ≠ []) :
    hash_dir algo chunksize resolve d children cache =
      (.error .unsupportedEntryKind, 0, 0) := by
  have hlen : (othersOf resolve d children).length > 0 := List.length_pos.2 h
  simp only [hash_dir, hash_dirF]
  rw [if_pos hlen]

/-- Witness for claim C4 at a directory holding a device file, with
`resolve_symlinks = false`: the device file is not a symlink, so it is not
skipped and still aborts the call. -/
theorem c4_unsupported_entry_witness :
    othersOf false "/d" [.file "a" [1], .other "dev"] ≠ [] ∧
    hash_dir algoId 5 false "/d" [.file "a" [1], .other "dev"] [] =
      (.error .unsupportedEntryKind, 0, 0) :=
  ⟨by decide,
   c4_unsupported_entry algoId 5 false "/d" [.file "a" [1], .other "dev"] [] (by decide)⟩

/-- Claim C5: for every algorithm and every positive chunk size, `checksum`
produces the digest of the file's whole content in one pass, and any two
positive chunk sizes produce identical results. -/
theorem c5_chunk_size_irrelevant (algo : Algo) (content : List Nat) (cs₁ cs₂ : Nat)
    (h₁ : 0 < cs₁) (h₂ : 0 < cs₂) :
    digest algo (checksum content cs₁) = algo content ∧
    checksum content cs₁ = checksum content cs₂ := by
  rw [checksum_pos_chunk content h₁, checksum_pos_chunk content h₂]
  exact ⟨rfl, rfl⟩

/-- Witness for claim C5 at a concrete file content and chunk sizes. -/
theorem c5_chunk_size_irrelevant_witness :
    0 < 2 ∧ 0 < 5 ∧
    (digest algoId (checksum [7, 8, 9] 2) = algoId [7, 8, 9] ∧
      checksum [7, 8, 9] 2 = checksum [7, 8, 9] 5) :=
  ⟨by decide, by decide, c5_chunk_size_irrelevant algoId [7, 8, 9] 2 5 (by decide) (by decide)⟩

/-- Claim C10: `checksum` with `chunksize = 0` does not fail; `f.read(0)`
returns the empty chunk, the update loop never runs, and the result is the
algorithm's empty-input digest regardless of the file content. -/
theorem c10_zero_chunk_size (algo : Algo) (content : List Nat) :
    checksum content 0 = [] ∧ digest algo (checksum content 0) = algo [] := by
  rw [checksum_zero_chunk]
  exact ⟨rfl, rfl⟩

/-- Claim C6: an empty directory hashes to the finalization of a fresh hash
state fed nothing — the algorithm's empty-input digest (`algo []`) — with no
reads and no error; and with `resolve_symlinks = false`, a directory whose
children are all symbolic links produces exactly the same result as an empty
directory. -/
theorem c6_empty_and_symlink_only (algo : Algo) (chunksize : Nat) (resolve : Bool)
    (d : String) (cache : Cache) (children : List Entry)
    (h : ∀ x ∈ children, isSymlinkEntry x = true) :
    hash_dir algo chunksize resolve d [] cache = (.ok ([], alistSet cache d []), 0, 0) ∧
    hash_dir algo chunksize false d children cache =
      hash_dir algo chunksize false d [] cache := by
  constructor
  · rfl
  · have hfiles := @filesOf_symlinks_nil d children h
    have hothers := @othersOf_symlinks_nil d children h
    have hnodirs : ∀ x ∈ children, ∀ p cs, classifyEntry false d x ≠ .asDir p cs := by
      intro x hx p cs hc
      rw [classifyEntry_skipped_of_symlink d (h x hx)] at hc
      cases hc
    have hsl : subdirLoop false (hash_dirF algo chunksize false (entriesSize children)) d
        children cache = (.ok ([], cache), 0, 0) :=
      subdirLoop_noDirs false (hash_dirF algo chunksize false (entriesSize children)) d
        children cache hnodirs
    show hash_dirF algo chunksize false (entriesSize children + 1) d children cache = _
    simp only [hash_dirF]
    rw [hfiles, hothers]
    simp only [List.length_nil, gt_iff_lt, Nat.lt_irrefl, if_false]
    simp only [fileLoop, hsl]
    rfl

/-- Witness for claim C6 at a directory holding only symbolic links. -/
theorem c6_empty_and_symlink_only_witness :
    (∀ x ∈ [Entry.symlinkFile "s" [3], Entry.symlinkBroken "b"], isSymlinkEntry x = true) ∧
    (hash_dir algoId 5 true "/d" [] [] = (.ok ([], alistSet [] "/d" []), 0, 0) ∧
      hash_dir algoId 5 false "/d" [.symlinkFile "s" [3], .symlinkBroken "b"] [] =
        hash_dir algoId 5 false "/d" [] []) :=
  ⟨by decide,
   c6_empty_and_symlink_only algoId 5 true "/d" []
     [.symlinkFile "s" [3], .symlinkBroken "b"] (by decide)⟩

/-- Claim C7: over an unchanged well-formed tree, a second `hash_dir` call
with the cache left by the first call returns the same digest and the same
cache, performs zero `checksum` invocations (file content reads), and makes
zero recursive `hash_dir` invocations (it does not re-recurse into cached
subdirectory paths). -/
theorem c7_cache_idempotent (algo : Algo) (chunksize : Nat) (resolve : Bool)
    (d : String) (children : List Entry) (h : HashState) (c₁ : Cache) (r k : Nat)
    (hno : noOthers resolve children = true)
    (hnd : (allPaths algo chunksize resolve d children).Nodup)
    (h1 : hash_dir algo chunksize resolve d children [] = (.ok (h, c₁), r, k)) :
    hash_dir algo chunksize resolve d children c₁ = (.ok (h, c₁), 0, 0) := by
  obtain ⟨r', k', heq⟩ := hash_dir_fresh algo chunksize resolve d children [] hno hnd
    (fun q _ => rfl)
  rw [h1] at heq
  obtain ⟨he, _⟩ := Prod.mk.injEq .. ▸ heq
  injection he with he
  obtain ⟨hh, hcc⟩ := Prod.mk.injEq .. ▸ he
  rw [List.nil_append] at hcc
  subst hh
  subst hcc
  have hothers : othersOf resolve d children = [] :=
    othersOf_eq_nil_of_hasOther resolve d children ((noOthers_iff resolve children).1 hno).1
  have hfc : ∀ pc ∈ filesOf resolve d children,
      alistGet (specEntries algo chunksize resolve d children) pc.1 =
        some ((fun pc => checksum pc.2 chunksize) pc) := by
    intro pc hpc
    obtain ⟨p, c⟩ := pc
    exact alistGet_specEntries_file algo chunksize resolve d children hnd hpc
  have hsc : ∀ pcs ∈ subdirsOf resolve d children,
      alistGet (specEntries algo chunksize resolve d children) pcs.1 =
        some ((fun pcs => specState algo chunksize resolve pcs.2) pcs) := by
    intro pcs hpcs
    obtain ⟨p, cs⟩ := pcs
    exact alistGet_specEntries_subdir algo chunksize resolve d children hnd hpcs
  have hgetd : alistGet (specEntries algo chunksize resolve d children) d =
      some (specState algo chunksize resolve children) :=
    alistGet_specEntries_own algo chunksize resolve d children hnd
  show hash_dirF algo chunksize resolve (entriesSize children + 1) d children _ = _
  simp only [hash_dirF]
  rw [hothers]
  simp only [List.length_nil, gt_iff_lt, Nat.lt_irrefl, if_false]
  rw [fileLoop_cached chunksize (filesOf resolve d children)
    (specEntries algo chunksize resolve d children)
    (fun pc => checksum pc.2 chunksize) hfc]
  rw [subdirLoop_cached resolve (hash_dirF algo chunksize resolve (entriesSize children)) d
    children (specEntries algo chunksize resolve d children)
    (fun pcs => specState algo chunksize resolve pcs.2) hsc]
  simp only [specState_assembly algo chunksize resolve d children, alistSet_eq_of_get hgetd]

/-- Witness for claim C7 at a concrete one-file directory. -/
theorem c7_cache_idempotent_witness :
    noOthers true [Entry.file "f" [1]] = true ∧
    (allPaths algoId 1 true "/d" [Entry.file "f" [1]]).Nodup ∧
    hash_dir algoId 1 true "/d" [.file "f" [1]] [] =
      (.ok ([1], [("/d/f", [1]), ("/d", [1])]), 1, 0) ∧
    hash_dir algoId 1 true "/d" [.file "f" [1]] [("/d/f", [1]), ("/d", [1])] =
      (.ok ([1], [("/d/f", [1]), ("/d", [1])]), 0, 0) :=
  ⟨by decide, by decide, rfl,
   c7_cache_idempotent algoId 1 true "/d" [.file "f" [1]] [1]
     [("/d/f", [1]), ("/d", [1])] 1 0 (by decide) (by decide) rfl⟩

/-- Claim C8: for every loaded path→hexdigest table, `getdupes` maps a hex
digest to the list of all its paths (in table order) exactly when at least two
paths carry it, and omits it otherwise; it is a pure function of the table. -/
theorem c8_find_duplicates (cache : List (String × String)) (hx : String) :
    alistGet (getdupes cache) hx =
      (if 2 ≤ ((cache.filter (fun e => e.2 = hx)).map (·.1)).length
       then some ((cache.filter (fun e => e.2 = hx)).map (·.1))
       else none) := by
  unfold getdupes
  rw [alistGet_filter (fun e => e.2.length > 1) (byHash cache) hx (byHash_keys_nodup cache)]
  unfold byHash
  rw [alistGet_byHash_foldl cache [] hx]
  have hnone : alistGet ([] : List (String × List String)) hx = none := rfl
  rw [hnone]
  cases hgp : (cache.filter (fun e => e.2 = hx)).map (·.1) with
  | nil => simp
  | cons p ps =>
    simp only [List.isEmpty_cons, Bool.false_eq_true, if_false]
    have hiff : (decide (1 < (p :: ps).length) = true) ↔ (2 ≤ (p :: ps).length) := by
      rw [decide_eq_true_iff]
      omega
    by_cases hlen : 2 ≤ (p :: ps).length
    · rw [if_pos hlen, if_pos (hiff.2 hlen)]
    · rw [if_neg hlen, if_neg (fun hh => hlen (hiff.1 hh))]

/-- Claim C9, counterexample: the cache is not write-once per key — the
traversed directory's own entry is overwritten unconditionally.  Hashing the
empty directory `/d` with a cache that already maps `/d` to digest `[9]`
replaces that entry's value with the freshly computed empty digest. -/
theorem c9_counterexample :
    alistGet [("/d", ([9] : HashState))] "/d" = some [9] ∧
    hash_dir algoId 1 true "/d" [] [("/d", [9])] = (.ok ([], [("/d", [])]), 0, 0) ∧
    some ([] : HashState) ≠ some [9] :=
  ⟨rfl, rfl, by decide⟩

/-- Claim C9, amended: during one `hash_dir` traversal every cache entry under
a path other than the traversed directory's own path keeps its value (present
entries are reused, never recomputed and never mutated); the traversed
directory's own path is unconditionally (re)written with the freshly computed
digest before the call returns, so only a pre-existing entry under the root
path can change value. -/
theorem c9_amended (algo : Algo) (chunksize : Nat) (resolve : Bool)
    (d : String) (children : List Entry) (cache : Cache)
    (h : HashState) (c' : Cache) (r k : Nat)
    (heq : hash_dir algo chunksize resolve d children cache = (.ok (h, c'), r, k)) :
    (∀ q w, q ≠ d → alistGet cache q = some w → alistGet c' q = some w) ∧
    alistGet c' d = some h :=
  hash_dirF_preserves algo chunksize resolve (entriesSize children + 1) d children cache
    h c' r k heq

/-- Witness for the amended claim C9 at a concrete input. -/
theorem c9_amended_witness :
    alistGet [("/x", ([5] : HashState)), ("/d/f", [2]), ("/d", [2])] "/x" = some [5] ∧
    alistGet [("/x", ([5] : HashState)), ("/d/f", [2]), ("/d", [2])] "/d" = some [2] :=
  ⟨(c9_amended algoId 1 true "/d" [.file "f" [2]] [("/x", [5])] [2]
      [("/x", [5]), ("/d/f", [2]), ("/d", [2])] 1 0 rfl).1 "/x" [5] (by decide) rfl,
   (c9_amended algoId 1 true "/d" [.file "f" [2]] [("/x", [5])] [2]
      [("/x", [5]), ("/d/f", [2]), ("/d", [2])] 1 0 rfl).2⟩
